import Mathlib

/-!
Verification of the text-parsing core of `extract_chess_results.py`
(repository linuxyong/nwsrs).

The two parsers under study are `extract_tournament_info` (the heading
parser) and `parse_section_results` (the section-table parser).  Text is
modelled as `List Char` (ASCII; the reports the program targets are plain
ASCII tables).  Python string primitives used by the code — `str.strip`,
`str.split` with and without a separator, `str.rstrip`, `int(...)`,
`float(...)`, `str.isdigit`, substring tests, and the two `re` patterns the
code compiles — are each embedded as executable Lean functions.  Fallible
Python code is embedded with `Option`; the one statement of the parser that
can raise an exception that no handler catches (the tuple unpacking
`end, games = end_games.split('/')`) is embedded with `Except Unit`.
-/

namespace NWSRS

/-- The six ASCII whitespace characters recognised by Python's `str.strip`,
`str.split()` and the regex class `\s` (ASCII model). -/
def isPySpace (c : Char) : Bool :=
  c = ' ' || c = '\t' || c = '\n' || c = '\x0b' || c = '\x0c' || c = '\r'

/-- The regex class `\w` (ASCII model): letters, digits and underscore. -/
def isWordChar (c : Char) : Bool :=
  c.isAlphanum || c = '_'

/-- Python `s.strip()`: drop leading and trailing whitespace. -/
def pyStrip (l : List Char) : List Char :=
  ((l.dropWhile isPySpace).reverse.dropWhile isPySpace).reverse

/-- Python `s.rstrip(ch)` for a single-character argument. -/
def pyRstrip (ch : Char) (l : List Char) : List Char :=
  (l.reverse.dropWhile (· = ch)).reverse

/-- Helper for `pySplitWs`; `acc` holds the characters of the token being
read, in reverse order. -/
def pySplitWsGo (acc : List Char) : List Char → List (List Char)
  | [] => if acc.isEmpty then [] else [acc.reverse]
  | c :: cs =>
    if isPySpace c then
      if acc.isEmpty then pySplitWsGo [] cs
      else acc.reverse :: pySplitWsGo [] cs
    else pySplitWsGo (c :: acc) cs

/-- Python `s.split()` with no separator: whitespace-delimited tokens,
empty tokens never produced. -/
def pySplitWs (l : List Char) : List (List Char) :=
  pySplitWsGo [] l

/-- Python `s.split(ch)` for a one-character separator: split at every
occurrence, keeping empty pieces. -/
def splitOnChar (sep : Char) : List Char → List (List Char)
  | [] => [[]]
  | c :: cs =>
    if c = sep then [] :: splitOnChar sep cs
    else
      match splitOnChar sep cs with
      | [] => [[c]]
      | t :: ts => (c :: t) :: ts

/-- Python `needle in hay` (substring containment). -/
def containsSeq (needle : List Char) : List Char → Bool
  | [] => needle.isPrefixOf []
  | c :: cs => needle.isPrefixOf (c :: cs) || containsSeq needle cs

/-- Tail of Python's integer-literal digit grammar: a digit string in which
a single underscore may separate two digits (`int("1_0")` parses, `"1__0"`,
`"_1"`, `"1_"` do not). -/
def usDigitsTail : List Char → Bool
  | [] => true
  | c :: cs =>
    if c = '_' then
      match cs with
      | [] => false
      | d :: ds => d.isDigit && usDigitsTail ds
    else c.isDigit && usDigitsTail cs

/-- Python's digit-run grammar (nonempty, underscores only between digits). -/
def usDigits : List Char → Bool
  | [] => false
  | c :: cs => c.isDigit && usDigitsTail cs

/-- Numeric value of a digit run, skipping underscores. -/
def digitsVal (l : List Char) : Nat :=
  l.foldl (fun acc c => if c = '_' then acc else acc * 10 + (c.toNat - '0'.toNat)) 0

/-- Python `int(s)` (ASCII model): optional surrounding whitespace, optional
sign, then a digit run with optional single underscores between digits;
`none` models a raised `ValueError`. -/
def pyInt? (l : List Char) : Option Int :=
  match pyStrip l with
  | [] => none
  | c :: cs =>
    if c = '+' then if usDigits cs then some (digitsVal cs) else none
    else if c = '-' then if usDigits cs then some (-(digitsVal cs : Int)) else none
    else if usDigits (c :: cs) then some (digitsVal (c :: cs)) else none

/-- Python `s.isdigit()` (ASCII model): nonempty and all decimal digits. -/
def pyIsDigit (l : List Char) : Bool :=
  !l.isEmpty && l.all (·.isDigit)

/-- The value of a Python `float(...)` call: a finite rational (the embedding
keeps the exact decimal value rather than an IEEE approximation — no claim
depends on rounding), or one of the special values Python's grammar admits. -/
inductive PyFloat where
  | finite : Rat → PyFloat
  | inf : PyFloat
  | neginf : PyFloat
  | nan : PyFloat
deriving DecidableEq, Repr

/-- Case-insensitive comparison against a fixed lowercase word. -/
def lowerEq (l : List Char) (s : List Char) : Bool :=
  l.map Char.toLower == s

/-- Split at the first character satisfying `p`; `none` if absent. -/
def splitAtFirst (p : Char → Bool) : List Char → List Char × Option (List Char)
  | [] => ([], none)
  | c :: cs =>
    if p c then ([], some cs)
    else
      let r := splitAtFirst p cs
      (c :: r.1, r.2)

/-- Exponent part of Python's float grammar: optional sign then a digit run. -/
def expVal? (l : List Char) : Option Int :=
  match l with
  | [] => none
  | c :: cs =>
    if c = '+' then if usDigits cs then some (digitsVal cs) else none
    else if c = '-' then if usDigits cs then some (-(digitsVal cs : Int)) else none
    else if usDigits (c :: cs) then some (digitsVal (c :: cs)) else none

/-- Number of actual digits in a digit run (underscores skipped). -/
def digitCount (l : List Char) : Nat :=
  (l.filter (· ≠ '_')).length

/-- Mantissa of Python's float grammar: `digits`, `digits.`, `digits.digits`
or `.digits`, each digit run with optional underscores. -/
def mantVal? (m : List Char) : Option Rat :=
  let s := splitAtFirst (· = '.') m
  match s.2 with
  | none => if usDigits s.1 then some ((digitsVal s.1 : Rat)) else none
  | some fp =>
    if fp.any (· = '.') then none
    else if s.1.isEmpty then
      if usDigits fp then some ((digitsVal fp : Rat) / (10 : Rat) ^ digitCount fp)
      else none
    else if usDigits s.1 then
      if fp.isEmpty then some ((digitsVal s.1 : Rat))
      else if usDigits fp then
        some ((digitsVal s.1 : Rat) + (digitsVal fp : Rat) / (10 : Rat) ^ digitCount fp)
      else none
    else none

/-- Python `float(s)` (ASCII model): strip whitespace, optional sign, then
`inf`/`infinity`/`nan` (case-insensitive) or a decimal mantissa with an
optional exponent; `none` models a raised `ValueError`. -/
def pyFloat? (l : List Char) : Option PyFloat :=
  let t := pyStrip l
  let sb : Bool × List Char :=
    match t with
    | c :: cs => if c = '+' then (false, cs) else if c = '-' then (true, cs) else (false, t)
    | [] => (false, t)
  let neg := sb.1
  let b := sb.2
  if lowerEq b ['i', 'n', 'f'] || lowerEq b ['i', 'n', 'f', 'i', 'n', 'i', 't', 'y'] then
    some (if neg then PyFloat.neginf else PyFloat.inf)
  else if lowerEq b ['n', 'a', 'n'] then some PyFloat.nan
  else
    let me := splitAtFirst (fun c => c = 'e' || c = 'E') b
    match me.2 with
    | none => (mantVal? me.1).map (fun q => PyFloat.finite (if neg then -q else q))
    | some ex =>
      match mantVal? me.1, expVal? ex with
      | some q, some e =>
        some (PyFloat.finite (if neg then -(q * (10 : Rat) ^ e) else q * (10 : Rat) ^ e))
      | _, _ => none

/-! ## The two `re` patterns of the heading parser

`extract_tournament_info` compiles `r'(\w{3}\s+\d{1,2},\s+\d{4})'` (the date
pattern, used with `re.search`) and `r'TD:?\s+([A-Za-z]+)'` (the
tournament-director pattern).  Both are embedded as direct matchers.  The
greedy-with-backtracking semantics of `\s+`, `\d{1,2}` and `:?` collapses to
a deterministic reading for these patterns: each greedy run is followed by a
literal or class the run's characters can never satisfy (a whitespace run is
followed by a digit, the day digits by a comma, the optional colon by
whitespace), so shorter backtracked attempts always fail. -/

/-- Matcher for `\d{1,2},` at the start of the text; returns the consumed
characters (day digits plus comma) and the remaining text.  Trying two
digits first and falling back to one mirrors the regex engine's greedy
order; when two digits are available but not followed by a comma, the
one-digit attempt would need the second digit to be a comma and fails. -/
def matchDayComma : List Char → Option (List Char × List Char)
  | [] => none
  | d1 :: rest1 =>
    if d1.isDigit then
      match rest1 with
      | [] => none
      | d2 :: rest2 =>
        if d2.isDigit then
          match rest2 with
          | [] => none
          | c :: rest3 => if c = ',' then some ([d1, d2, ','], rest3) else none
        else if d2 = ',' then some ([d1, ','], rest2)
        else none
    else none

/-- Matcher for the date pattern `\w{3}\s+\d{1,2},\s+\d{4}` anchored at the
start of `t`; returns the matched characters. -/
def matchDateAt (t : List Char) : Option (List Char) :=
  match t with
  | c1 :: c2 :: c3 :: r0 =>
    if isWordChar c1 && isWordChar c2 && isWordChar c3 then
      let ws1 := r0.takeWhile isPySpace
      let r1 := r0.dropWhile isPySpace
      if ws1.isEmpty then none
      else
        match matchDayComma r1 with
        | none => none
        | some (dc, r2) =>
          let ws2 := r2.takeWhile isPySpace
          let r3 := r2.dropWhile isPySpace
          if ws2.isEmpty then none
          else
            match r3 with
            | y1 :: y2 :: y3 :: y4 :: _ =>
              if y1.isDigit && y2.isDigit && y3.isDigit && y4.isDigit then
                some ([c1, c2, c3] ++ ws1 ++ dc ++ ws2 ++ [y1, y2, y3, y4])
              else none
            | _ => none
    else none
  | _ => none

/-- `re.search` for the date pattern: try each start position left to
right; return the start index and matched text of the first success. -/
def dateSearchGo : List Char → Option (Nat × List Char)
  | [] => none
  | c :: cs =>
    match matchDateAt (c :: cs) with
    | some m => some (0, m)
    | none => (dateSearchGo cs).map (fun p => (p.1 + 1, p.2))

/-- Matcher for `TD:?\s+([A-Za-z]+)` anchored at the start of `t`; returns
the captured group (the maximal alphabetic run).  If the optional colon is
present but the rest fails, the backtracked attempt without the colon puts
`\s+` on the colon itself and fails, so consuming the colon when present is
exact. -/
def tdMatchAt (t : List Char) : Option (List Char) :=
  match t with
  | c1 :: c2 :: r =>
    if c1 = 'T' && c2 = 'D' then
      let r1 : List Char :=
        match r with
        | c :: rr => if c = ':' then rr else r
        | [] => r
      let ws := r1.takeWhile isPySpace
      let r2 := r1.dropWhile isPySpace
      let w := r2.takeWhile (·.isAlpha)
      if !ws.isEmpty && !w.isEmpty then some w else none
    else none
  | _ => none

/-- `re.search` for the tournament-director pattern: first position whose
anchored match succeeds; returns the captured word. -/
def tdSearchGo : List Char → Option (List Char)
  | [] => none
  | c :: cs =>
    match tdMatchAt (c :: cs) with
    | some w => some w
    | none => tdSearchGo cs

/-! ## Python `str.split(sep)` for a multi-character separator -/

/-- Index of the first occurrence of `sep` in `l` at or after the scan
start, counting from `i`. -/
def firstOccurGo (sep : List Char) : Nat → List Char → Option Nat
  | i, l =>
    if sep.isPrefixOf l then some i
    else
      match l with
      | [] => none
      | _ :: cs => firstOccurGo sep (i + 1) cs

/-- Fuelled worker for `pySplitSep`; `acc` holds the characters of the
current piece in reverse.  The fuel only bounds the recursion; with fuel
above the text length it is never exhausted. -/
def splitSepGo (sep : List Char) : Nat → List Char → List Char → List (List Char)
  | 0, acc, l => [acc.reverse ++ l]
  | fuel + 1, acc, l =>
    if !sep.isEmpty && sep.isPrefixOf l then
      acc.reverse :: splitSepGo sep fuel [] (l.drop sep.length)
    else
      match l with
      | [] => [acc.reverse]
      | c :: cs => splitSepGo sep fuel (c :: acc) cs

/-- Python `s.split(sep)` for a nonempty separator: pieces between
non-overlapping occurrences found left to right, empty pieces kept. -/
def pySplitSep (sep l : List Char) : List (List Char) :=
  splitSepGo sep (l.length + 1) [] l

/-- The piece of `l` before the first occurrence of `sep` (all of `l` when
`sep` does not occur): the text between one separator occurrence and the
next, as `str.split` produces it. -/
def segmentUntil (sep l : List Char) : List Char :=
  l.take ((firstOccurGo sep 0 l).getD l.length)

/-! ## The heading parser (`extract_tournament_info`, lines 8-70)

The HTML lookup (`soup.find('h3', class_='tournreport')` followed by
`get_text()`) belongs to the out-of-scope retrieval collaborator; the
embedding takes the text content of the heading block.  The Python dict
`tournament_info` becomes a record of four optional fields. -/

structure TournamentInfo where
  tournament : Option (List Char)
  date : Option (List Char)
  address : Option (List Char)
  td : Option (List Char)
deriving DecidableEq, Repr

/-- `lines = [line.strip() for line in tourney_text.split('\n') if line.strip()]`
(applied to the already-stripped heading text). -/
def headingLines (text : List Char) : List (List Char) :=
  ((splitOnChar '\n' (pyStrip text)).map pyStrip).filter (fun l => !l.isEmpty)

/-- The address candidate taken from the line holding the date: piece 1 of
`line.split(date)`, stripped, when the split has more than one piece and
the stripped piece is nonempty. -/
def addressFromPieces (pieces : List (List Char)) : Option (List Char) :=
  if 1 < pieces.length then
    let ap := pyStrip (pieces.getD 1 [])
    if ap.isEmpty then none else some ap
  else none

/-- The scan of `lines[1:]` for the first line where the date pattern
matches; returns that line and the matched text. -/
def findDateInLines : List (List Char) → Option (List Char × List Char)
  | [] => none
  | l :: ls =>
    match dateSearchGo l with
    | some km => some (l, km.2)
    | none => findDateInLines ls

/-- The address fallback: first of the remaining lines that neither
contains the extracted date text (when a date was extracted) nor the
substring `TD:`, stripped. -/
def addressFallback (date? : Option (List Char)) : List (List Char) → Option (List Char)
  | [] => none
  | l :: ls =>
    if (date?.elim false (fun d => containsSeq d l)) || containsSeq ['T', 'D', ':'] l then
      addressFallback date? ls
    else some (pyStrip l)

/-- The tournament-director scan over all lines: first line where the TD
pattern matches supplies the captured word. -/
def tdFirst : List (List Char) → Option (List Char)
  | [] => none
  | l :: ls =>
    match tdSearchGo l with
    | some w => some w
    | none => tdFirst ls

/-- The heading parser: `extract_tournament_info` of
`src/extract_chess_results.py` (lines 8-70), taken from the heading text
onward.  Total by construction — the Python body can raise no exception:
every index is guarded and `split` is called on the nonempty matched date. -/
def extract_tournament_info (text : List Char) : TournamentInfo :=
  match headingLines text with
  | [] => ⟨none, none, none, none⟩
  | first :: rest =>
    let base : TournamentInfo :=
      match dateSearchGo first with
      | some km =>
        let pieces := pySplitSep km.2 first
        { tournament := some (pyStrip (pieces.getD 0 []))
          date := some km.2
          address := addressFromPieces pieces
          td := none }
      | none =>
        match findDateInLines rest with
        | some lm =>
          { tournament := some first
            date := some lm.2
            address := addressFromPieces (pySplitSep lm.2 lm.1)
            td := none }
        | none => { tournament := some first, date := none, address := none, td := none }
    let addr : Option (List Char) :=
      match base.address with
      | some a => some a
      | none => if rest.isEmpty then none else addressFallback base.date rest
    { base with address := addr, td := tdFirst (first :: rest) }

/-! ## The section-table parser (`parse_section_results`, lines 72-209)

One row of output; `end` is a Lean keyword, so the Python key `"end"`
becomes the field `endRating` (the spec's `endRating`), and the remaining
fields keep the Python dict keys (`pos`, `id`, `start`, `gms`, `rds`,
`tot`); `"last name"` / `"first name"` become `lastName` / `firstName`. -/

structure RoundResult where
  round : List Char
  res : List Char
deriving DecidableEq, Repr

structure Player where
  pos : Int
  id : List Char
  lastName : List Char
  firstName : List Char
  start : Option Int
  endRating : Option Int
  gms : Option Int
  rds : List RoundResult
  tot : Option PyFloat
deriving DecidableEq, Repr

/-- A header token naming a round column:
`part.startswith('rd') and part[2:].isdigit()`. -/
def isRdToken (t : List Char) : Bool :=
  ['r', 'd'].isPrefixOf t && pyIsDigit (t.drop 2)

/-- The `enumerate(header_parts)` loop collecting `(i, part)` for round
tokens, entered with the index of the first token. -/
def roundColsGo (i : Nat) : List (List Char) → List (Nat × List Char)
  | [] => []
  | t :: ts =>
    if isRdToken t then (i, t) :: roundColsGo (i + 1) ts
    else roundColsGo (i + 1) ts

/-- The header scan: ordered `(tokenIndex, label)` pairs of round columns. -/
def round_columns (header : List Char) : List (Nat × List Char) :=
  roundColsGo 0 (pySplitWs header)

/-- The external-ID anchor test `re.match(r'^[A-Z0-9]{8}$', part)`:
exactly eight characters, each an uppercase ASCII letter or digit. -/
def idMatch (t : List Char) : Bool :=
  t.length = 8 && t.all (fun c => c.isUpper || c.isDigit)

/-- The start-rating step: `try: player["start"] = int(parts[idx]); idx += 1`
— on success the value and an advanced cursor, on failure (or cursor out of
range) no value and an unmoved cursor. -/
def parseStartRating (parts : List (List Char)) (i : Nat) : Option Int × Nat :=
  if i < parts.length then
    match pyInt? (parts.getD i []) with
    | some v => (some v, i + 1)
    | none => (none, i)
  else (none, i)

/-- The end-rating / games-played step (lines 131-171), producing
`(endRating, gamesPlayed, cursor)`.  The tuple unpacking
`end, games = end_games.split('/')` stands *outside* the `try` block; when
the token holds two or more slashes the split yields three or more pieces
and the unpacking raises an uncaught `ValueError`, modelled as
`Except.error ()`.  In the single-slash branch the `try` block assigns
`player["end"]` before `player["gms"]`, so a games parse failure still
leaves the already-assigned end rating in place, while an end parse failure
leaves both unset. -/
def parseEndGamesCore (eg : List Char) (next? : Option (List Char)) :
    Except Unit (Option Int × Option Int × Nat) :=
  if eg.contains '/' && !eg.contains ' ' then
    match splitOnChar '/' eg with
    | [a, b] =>
      match pyInt? (pyStrip a) with
      | none => .ok (none, none, 1)
      | some e => .ok (some e, pyInt? (pyStrip b), 1)
    | _ => .error ()
  else if eg.contains '/' && eg.getLast? = some '/' then
    match pyInt? (pyStrip (pyRstrip '/' eg)) with
    | none => .ok (none, none, 1)
    | some e =>
      match next? with
      | some nx =>
        match pyInt? (pyStrip nx) with
        | some g => .ok (some e, some g, 2)
        | none => .ok (some e, none, 1)
      | none => .ok (some e, none, 1)
  else .ok (pyInt? (pyStrip eg), none, 1)

/-- The cursor-threading wrapper: the step acts on `parts[idx]` (and in the
dead second branch on `parts[idx + 1]`, when in range) and advances the
cursor by the number of consumed tokens. -/
def parseEndGames (parts : List (List Char)) (i : Nat) :
    Except Unit (Option Int × Option Int × Nat) :=
  if i < parts.length then
    match parseEndGamesCore (parts.getD i [])
        (if i + 1 < parts.length then some (parts.getD (i + 1) []) else none) with
    | .error e => .error e
    | .ok r => .ok (r.1, r.2.1, i + r.2.2)
  else .ok (none, none, i)

/-- The bare-digit games-played fallback (lines 173-181): when an end
rating was parsed but no games count, a following all-digit token is
consumed as `gms`. -/
def gmsFallback (parts : List (List Char)) (i : Nat) (e g : Option Int) :
    Option Int × Nat :=
  if e.isSome && g.isNone then
    if i < parts.length && pyIsDigit (parts.getD i []) then
      match pyInt? (parts.getD i []) with
      | some v => (some v, i + 1)
      | none => (g, i)
    else (g, i)
  else (g, i)

/-- The end-rating step followed by the bare-digit fallback. -/
def endGamesFb (parts : List (List Char)) (i : Nat) :
    Except Unit (Option Int × Option Int × Nat) :=
  match parseEndGames parts i with
  | .error e => .error e
  | .ok egc =>
    let gc := gmsFallback parts egc.2.2 egc.1 egc.2.1
    .ok (egc.1, gc.1, gc.2)

/-- All three rating/games stages in sequence, starting at the token after
the ID anchor: returns `(start, endRating, gms, cursor)` where the cursor
is the index of the first round-result column. -/
def ratingStages (parts : List (List Char)) (i0 : Nat) :
    Except Unit (Option Int × Option Int × Option Int × Nat) :=
  let sr := parseStartRating parts i0
  match endGamesFb parts sr.2 with
  | .error e => .error e
  | .ok egc => .ok (sr.1, egc.1, egc.2.1, egc.2.2)

/-- The round-results loop: for the i-th round column the token at
`first_round_idx + i`, appended only when that index is in range; `j` is
the running result index. -/
def roundsGo (parts : List (List Char)) : Nat → List (Nat × List Char) → List RoundResult
  | _, [] => []
  | j, rc :: rest =>
    if j < parts.length then ⟨rc.2, parts.getD j []⟩ :: roundsGo parts (j + 1) rest
    else roundsGo parts (j + 1) rest

/-- The total-score step: the token at `first_round_idx + len(round_columns)`,
parsed as a float when the index is in range (the truthiness test
`parts[total_idx]` is kept verbatim, though split tokens are never empty). -/
def totOf (parts : List (List Char)) (ti : Nat) : Option PyFloat :=
  if ti < parts.length && !(parts.getD ti []).isEmpty then pyFloat? (parts.getD ti [])
  else none

/-- `parseEndGames` with its second branch — the
`elif '/' in end_games and end_games.endswith('/')` arm meant for the
split-token "rating/ games" format — removed, the `else` arm taking its
place.  Used to state that the removed branch is dead code on every line
the parser can feed it (claim C9). -/
def parseEndGamesCoreNoElif (eg : List Char) :
    Except Unit (Option Int × Option Int × Nat) :=
  if eg.contains '/' && !eg.contains ' ' then
    match splitOnChar '/' eg with
    | [a, b] =>
      match pyInt? (pyStrip a) with
      | none => .ok (none, none, 1)
      | some e => .ok (some e, pyInt? (pyStrip b), 1)
    | _ => .error ()
  else .ok (pyInt? (pyStrip eg), none, 1)

def parseEndGamesNoElif (parts : List (List Char)) (i : Nat) :
    Except Unit (Option Int × Option Int × Nat) :=
  if i < parts.length then
    match parseEndGamesCoreNoElif (parts.getD i []) with
    | .error e => .error e
    | .ok r => .ok (r.1, r.2.1, i + r.2.2)
  else .ok (none, none, i)

/-- The per-line loop body of `parse_section_results` from the point where
the line has been tokenized (`parts = line.split()`): `.ok none` models
`continue` (line skipped), `.ok (some p)` a row appended to `results`,
`.error ()` the uncaught `ValueError` described at `parseEndGames`. -/
def parseRowParts (rcs : List (Nat × List Char)) (parts : List (List Char)) :
    Except Unit (Option Player) :=
  if parts.length < 10 then .ok none
  else
    match pyInt? (parts.getD 0 []) with
    | none => .ok none
    | some pos =>
      match List.findIdx? idMatch parts with
      | none => .ok none
      | some ne =>
        if ne < 2 then .ok none
        else
          match ratingStages parts (ne + 1) with
          | .error e => .error e
          | .ok segc =>
            .ok (some
              { pos := pos
                id := parts.getD ne []
                lastName := pyRstrip ',' (parts.getD 1 [])
                firstName := List.intercalate [' '] ((parts.drop 2).take (ne - 2))
                start := segc.1
                endRating := segc.2.1
                gms := segc.2.2.1
                rds := roundsGo parts segc.2.2.2 rcs
                tot := totOf parts (segc.2.2.2 + rcs.length) })

/-- One iteration of the per-line loop: skip blank lines, otherwise
tokenize and run the body. -/
def parseRow (rcs : List (Nat × List Char)) (line : List Char) :
    Except Unit (Option Player) :=
  if (pyStrip line).isEmpty then .ok none
  else parseRowParts rcs (pySplitWs line)

/-- The loop over `lines[1:]`; an error raised in any iteration propagates
out of the whole call (discarding every already-collected row, as a raised
exception does). -/
def parseRows (rcs : List (Nat × List Char)) : List (List Char) → Except Unit (List Player)
  | [] => .ok []
  | l :: ls =>
    match parseRow rcs l with
    | .error e => .error e
    | .ok none => parseRows rcs ls
    | .ok (some p) =>
      match parseRows rcs ls with
      | .error e => .error e
      | .ok res => .ok (p :: res)

/-- The section-table parser: `parse_section_results` of
`src/extract_chess_results.py` (lines 72-209). -/
def parse_section_results (pre_text : List Char) : Except Unit (List Player) :=
  match splitOnChar '\n' (pyStrip pre_text) with
  | [] => .ok []
  | header :: rest => parseRows (round_columns (pyStrip header)) rest

/-! ## Spec-side date-pattern descriptions (for claim C8)

The spec describes the date pattern in words; the two predicates below
follow those words — `MonthShape` the original claim's "3-letter month
name", `DateShape` the amended wording that reflects the code's `\w{3}` —
so the matcher can be compared against them. -/

/-- Decomposition of a date-pattern match per the amended wording of
claim C8: three word characters (the code's `\w{3}`), then nonempty
whitespace, a one-or-two-digit day, a comma, nonempty whitespace, and a
four-digit year. -/
def DateShape (m : List Char) : Prop :=
  ∃ w3 ws1 day ws2 year : List Char,
    m = w3 ++ ws1 ++ day ++ [','] ++ ws2 ++ year ∧
    w3.length = 3 ∧ (∀ c ∈ w3, isWordChar c = true) ∧
    ws1 ≠ [] ∧ (∀ c ∈ ws1, isPySpace c = true) ∧
    (day.length = 1 ∨ day.length = 2) ∧ (∀ c ∈ day, c.isDigit = true) ∧
    ws2 ≠ [] ∧ (∀ c ∈ ws2, isPySpace c = true) ∧
    year.length = 4 ∧ (∀ c ∈ year, c.isDigit = true)

/-- The twelve three-letter English month names. -/
def monthNames : List (List Char) :=
  [['J', 'a', 'n'], ['F', 'e', 'b'], ['M', 'a', 'r'], ['A', 'p', 'r'],
   ['M', 'a', 'y'], ['J', 'u', 'n'], ['J', 'u', 'l'], ['A', 'u', 'g'],
   ['S', 'e', 'p'], ['O', 'c', 't'], ['N', 'o', 'v'], ['D', 'e', 'c']]

/-- Decomposition of a date-pattern match per the original wording of
claim C8: a three-letter month name, then whitespace, day, comma,
whitespace, year as in `DateShape`. -/
def MonthShape (m : List Char) : Prop :=
  ∃ w3 ws1 day ws2 year : List Char,
    m = w3 ++ ws1 ++ day ++ [','] ++ ws2 ++ year ∧
    w3 ∈ monthNames ∧
    ws1 ≠ [] ∧ (∀ c ∈ ws1, isPySpace c = true) ∧
    (day.length = 1 ∨ day.length = 2) ∧ (∀ c ∈ day, c.isDigit = true) ∧
    ws2 ≠ [] ∧ (∀ c ∈ ws2, isPySpace c = true) ∧
    year.length = 4 ∧ (∀ c ∈ year, c.isDigit = true)

/-- A line contains a substring of the amended claim C8 form. -/
def ContainsWordDate (cs : List Char) : Prop :=
  ∃ pre m rest : List Char, cs = pre ++ m ++ rest ∧ DateShape m

/-- A line contains a substring of the original claim C8 form
(month-name version). -/
def ContainsMonthDate (cs : List Char) : Prop :=
  ∃ pre m rest : List Char, cs = pre ++ m ++ rest ∧ MonthShape m

/-! ## Basic facts about character classes and string primitives -/

theorem isPySpace_false_of_isDigit {c : Char} (h : c.isDigit = true) :
    isPySpace c = false := by
  have h0 : c ≠ ' ' := by rintro rfl; exact absurd h (by decide)
  have h1 : c ≠ '\t' := by rintro rfl; exact absurd h (by decide)
  have h2 : c ≠ '\n' := by rintro rfl; exact absurd h (by decide)
  have h3 : c ≠ '\x0b' := by rintro rfl; exact absurd h (by decide)
  have h4 : c ≠ '\x0c' := by rintro rfl; exact absurd h (by decide)
  have h5 : c ≠ '\r' := by rintro rfl; exact absurd h (by decide)
  simp [isPySpace, h0, h1, h2, h3, h4, h5]

theorem takeWhile_append_all {p : Char → Bool} {a : List Char} (b : List Char)
    (ha : ∀ c ∈ a, p c = true) :
    (a ++ b).takeWhile p = a ++ b.takeWhile p := by
  induction a with
  | nil => simp
  | cons x xs ih =>
    have hx : p x = true := ha x (by simp)
    simp only [List.cons_append, List.takeWhile_cons, hx, if_true]
    rw [ih (fun c hc => ha c (List.mem_cons_of_mem _ hc))]

theorem dropWhile_append_all {p : Char → Bool} {a : List Char} (b : List Char)
    (ha : ∀ c ∈ a, p c = true) :
    (a ++ b).dropWhile p = b.dropWhile p := by
  induction a with
  | nil => simp
  | cons x xs ih =>
    have hx : p x = true := ha x (by simp)
    simp only [List.cons_append, List.dropWhile_cons, hx, if_true]
    exact ih (fun c hc => ha c (List.mem_cons_of_mem _ hc))

theorem takeWhile_eq_nil_of_head {p : Char → Bool} {x : Char} (xs : List Char)
    (hx : p x = false) : (x :: xs).takeWhile p = [] := by
  simp [List.takeWhile_cons, hx]

theorem dropWhile_eq_self_of_head {p : Char → Bool} {x : Char} (xs : List Char)
    (hx : p x = false) : (x :: xs).dropWhile p = x :: xs := by
  simp [List.dropWhile_cons, hx]

theorem dropWhile_eq_self_of_all {p : Char → Bool} {l : List Char}
    (h : ∀ c ∈ l, p c = false) : l.dropWhile p = l := by
  cases l with
  | nil => rfl
  | cons x xs => exact dropWhile_eq_self_of_head xs (h x (by simp))

theorem pyStrip_eq_self_of_all {l : List Char}
    (h : ∀ c ∈ l, isPySpace c = false) : pyStrip l = l := by
  unfold pyStrip
  rw [dropWhile_eq_self_of_all h,
    dropWhile_eq_self_of_all (fun c hc => h c (List.mem_reverse.mp hc)), List.reverse_reverse]

theorem pyStrip_eq_nil_of_all {l : List Char}
    (h : ∀ c ∈ l, isPySpace c = true) : pyStrip l = [] := by
  unfold pyStrip
  have h1 : l.dropWhile isPySpace = [] := List.dropWhile_eq_nil_iff.mpr h
  simp [h1]

/-- The stripped text is a contiguous slice of the original: the dropped
leading run and the dropped trailing run surround it. -/
theorem pyStrip_within (l : List Char) : pyStrip l <:+: l := by
  refine ⟨l.takeWhile isPySpace,
    ((l.dropWhile isPySpace).reverse.takeWhile isPySpace).reverse, ?_⟩
  have hX : ((l.dropWhile isPySpace).reverse.takeWhile isPySpace) ++
      ((l.dropWhile isPySpace).reverse.dropWhile isPySpace) =
      (l.dropWhile isPySpace).reverse := List.takeWhile_append_dropWhile ..
  have hXr := congrArg List.reverse hX
  rw [List.reverse_append, List.reverse_reverse] at hXr
  unfold pyStrip
  rw [List.append_assoc, hXr, List.takeWhile_append_dropWhile]

/-! ## Tokens produced by `pySplitWs` are nonempty and whitespace-free -/

theorem pySplitWsGo_tokens {l acc : List Char}
    (hacc : ∀ c ∈ acc, isPySpace c = false) :
    ∀ t ∈ pySplitWsGo acc l, t ≠ [] ∧ ∀ c ∈ t, isPySpace c = false := by
  induction l generalizing acc with
  | nil =>
    intro t ht
    unfold pySplitWsGo at ht
    by_cases h : acc.isEmpty
    · simp [h] at ht
    · simp only [h, Bool.false_eq_true, if_false, List.mem_singleton] at ht
      subst ht
      refine ⟨fun hn => ?_, fun c hc => hacc c (List.mem_reverse.mp hc)⟩
      rw [List.reverse_eq_nil_iff] at hn
      subst hn
      simp at h
  | cons x xs ih =>
    intro t ht
    unfold pySplitWsGo at ht
    by_cases hx : isPySpace x
    · simp only [hx, if_true] at ht
      by_cases h : acc.isEmpty
      · simp only [h, if_true] at ht
        exact ih (by simp) t ht
      · simp only [h, Bool.false_eq_true, if_false, List.mem_cons] at ht
        rcases ht with ht | ht
        · subst ht
          refine ⟨fun hn => ?_, fun c hc => hacc c (List.mem_reverse.mp hc)⟩
          rw [List.reverse_eq_nil_iff] at hn
          subst hn
          simp at h
        · exact ih (by simp) t ht
    · simp only [hx, Bool.false_eq_true, if_false] at ht
      refine ih ?_ t ht
      intro c hc
      rcases List.mem_cons.mp hc with rfl | hc
      · simpa using hx
      · exact hacc c hc

theorem pySplitWs_tokens (l : List Char) :
    ∀ t ∈ pySplitWs l, t ≠ [] ∧ ∀ c ∈ t, isPySpace c = false :=
  pySplitWsGo_tokens (by simp)

theorem getD_mem_of_lt {α : Type} {l : List α} {i : Nat} (d : α)
    (h : i < l.length) : l.getD i d ∈ l := by
  rw [List.getD_eq_getElem?_getD, List.getElem?_eq_getElem h]
  exact List.getElem_mem h

theorem pySplitWs_getD_ne_nil {l : List Char} {i : Nat}
    (h : i < (pySplitWs l).length) : (pySplitWs l).getD i [] ≠ [] :=
  (pySplitWs_tokens l _ (getD_mem_of_lt [] h)).1

/-- The boolean prefix test agrees with the prefix relation. -/
theorem prefixOf_iff {l₁ l₂ : List Char} : l₁.isPrefixOf l₂ = true ↔ l₁ <+: l₂ :=
  List.isPrefixOf_iff_prefix

/-! ## Characterization of the date-pattern matcher -/

theorem matchDayComma_sound {r dc r2 : List Char}
    (h : matchDayComma r = some (dc, r2)) :
    r = dc ++ r2 ∧ ∃ day : List Char, dc = day ++ [','] ∧
      (day.length = 1 ∨ day.length = 2) ∧ ∀ c ∈ day, c.isDigit = true := by
  cases r with
  | nil => simp [matchDayComma] at h
  | cons d1 rest1 =>
    by_cases hd1 : d1.isDigit = true
    · cases rest1 with
      | nil => simp [matchDayComma, hd1] at h
      | cons d2 rest2 =>
        by_cases hd2 : d2.isDigit = true
        · cases rest2 with
          | nil => simp [matchDayComma, hd1, hd2] at h
          | cons c rest3 =>
            by_cases hc : c = ','
            · subst hc
              simp only [matchDayComma, hd1, hd2, if_true, Option.some_inj] at h
              obtain ⟨h1, h2⟩ := Prod.mk.injEq .. ▸ h
              subst h1; subst h2
              exact ⟨by simp, [d1, d2], by simp, Or.inr rfl, by
                intro x hx
                rcases List.mem_cons.mp hx with rfl | hx
                · exact hd1
                · rcases List.mem_cons.mp hx with rfl | hx
                  · exact hd2
                  · simp at hx⟩
            · simp [matchDayComma, hd1, hd2, hc] at h
        · by_cases hc2 : d2 = ','
          · subst hc2
            simp only [matchDayComma, hd1, if_true, hd2, Bool.false_eq_true, if_false,
              Option.some_inj] at h
            obtain ⟨h1, h2⟩ := Prod.mk.injEq .. ▸ h
            subst h1; subst h2
            exact ⟨by simp, [d1], by simp, Or.inl rfl, by
              intro x hx
              rcases List.mem_cons.mp hx with rfl | hx
              · exact hd1
              · simp at hx⟩
          · simp [matchDayComma, hd1, hd2, hc2] at h
    · simp [matchDayComma, hd1] at h

theorem matchDayComma_complete {day : List Char} (rest : List Char)
    (hlen : day.length = 1 ∨ day.length = 2) (hdig : ∀ c ∈ day, c.isDigit = true) :
    matchDayComma (day ++ ',' :: rest) = some (day ++ [','], rest) := by
  rcases hlen with h1 | h2
  · obtain ⟨d, hd⟩ := List.length_eq_one.mp h1
    subst hd
    have hdd : d.isDigit = true := hdig d (by simp)
    simp [matchDayComma, hdd]
  · obtain ⟨d1, d2, hd⟩ := List.length_eq_two.mp h2
    subst hd
    have hd1 : d1.isDigit = true := hdig d1 (by simp)
    have hd2 : d2.isDigit = true := hdig d2 (by simp)
    simp [matchDayComma, hd1, hd2]

theorem list_length_eq_four {α : Type} {l : List α} (h : l.length = 4) :
    ∃ a b c d, l = [a, b, c, d] := by
  cases l with
  | nil => simp at h
  | cons a t1 =>
    cases t1 with
    | nil => simp at h
    | cons b t2 =>
      cases t2 with
      | nil => simp at h
      | cons c t3 =>
        cases t3 with
        | nil => simp at h
        | cons d t4 =>
          cases t4 with
          | nil => exact ⟨a, b, c, d, rfl⟩
          | cons e t5 =>
            simp only [List.length_cons] at h
            omega

theorem matchDateAt_sound {t m : List Char} (h : matchDateAt t = some m) :
    (∃ rest, t = m ++ rest) ∧ DateShape m := by
  cases t with
  | nil => simp [matchDateAt] at h
  | cons c1 t1 =>
    cases t1 with
    | nil => simp [matchDateAt] at h
    | cons c2 t2 =>
      cases t2 with
      | nil => simp [matchDateAt] at h
      | cons c3 r0 =>
        by_cases hw : (isWordChar c1 && isWordChar c2 && isWordChar c3) = true
        · rw [show matchDateAt (c1 :: c2 :: c3 :: r0) =
            (if (isWordChar c1 && isWordChar c2 && isWordChar c3) = true then
              (let ws1 := r0.takeWhile isPySpace
               let r1 := r0.dropWhile isPySpace
               if ws1.isEmpty then none
               else
                 match matchDayComma r1 with
                 | none => none
                 | some (dc, r2) =>
                   let ws2 := r2.takeWhile isPySpace
                   let r3 := r2.dropWhile isPySpace
                   if ws2.isEmpty then none
                   else
                     match r3 with
                     | y1 :: y2 :: y3 :: y4 :: _ =>
                       if y1.isDigit && y2.isDigit && y3.isDigit && y4.isDigit then
                         some ([c1, c2, c3] ++ ws1 ++ dc ++ ws2 ++ [y1, y2, y3, y4])
                       else none
                     | _ => none)
            else none) from by simp [matchDateAt], if_pos hw] at h
          set ws1 := r0.takeWhile isPySpace with hws1def
          set X := r0.dropWhile isPySpace with hXdef
          have hsplit0 : r0 = ws1 ++ X := (List.takeWhile_append_dropWhile ..).symm
          have hws1all : ∀ c ∈ ws1, isPySpace c = true :=
            fun c hc => List.mem_takeWhile_imp hc
          by_cases hws1 : ws1.isEmpty
          · simp only [hws1, if_true] at h
            exact absurd h (by simp)
          · simp only [hws1, Bool.false_eq_true, if_false] at h
            cases hmdc : matchDayComma X with
            | none => rw [hmdc] at h; simp at h
            | some dcr2 =>
              obtain ⟨dc, r2⟩ := dcr2
              rw [hmdc] at h
              simp only at h
              set ws2 := r2.takeWhile isPySpace with hws2def
              set Y := r2.dropWhile isPySpace with hYdef
              have hsplit2 : r2 = ws2 ++ Y := (List.takeWhile_append_dropWhile ..).symm
              have hws2all : ∀ c ∈ ws2, isPySpace c = true :=
                fun c hc => List.mem_takeWhile_imp hc
              by_cases hws2 : ws2.isEmpty
              · simp only [hws2, if_true] at h
                exact absurd h (by simp)
              · simp only [hws2, Bool.false_eq_true, if_false] at h
                cases hr3 : Y with
                | nil => rw [hr3] at h; simp at h
                | cons y1 t3 =>
                  cases t3 with
                  | nil => rw [hr3] at h; simp at h
                  | cons y2 t4 =>
                    cases t4 with
                    | nil => rw [hr3] at h; simp at h
                    | cons y3 t5 =>
                      cases t5 with
                      | nil => rw [hr3] at h; simp at h
                      | cons y4 t6 =>
                        rw [hr3] at h
                        by_cases hdig :
                            (y1.isDigit && y2.isDigit && y3.isDigit && y4.isDigit) = true
                        · simp only [hdig, if_true, Option.some_inj] at h
                          obtain ⟨hmd, day, hdc, hdaylen, hdaydig⟩ := matchDayComma_sound hmdc
                          have hwnil1 : ws1 ≠ [] := by
                            intro hn; rw [hn] at hws1; simp at hws1
                          have hwnil2 : ws2 ≠ [] := by
                            intro hn; rw [hn] at hws2; simp at hws2
                          simp only [Bool.and_eq_true] at hw hdig
                          constructor
                          · refine ⟨t6, ?_⟩
                            rw [← h, hsplit0, hmd, hsplit2, hr3]
                            simp [List.append_assoc]
                          · refine ⟨[c1, c2, c3], ws1, day, ws2, [y1, y2, y3, y4],
                              ?_, by simp, ?_,
                              hwnil1, hws1all, hdaylen, hdaydig, hwnil2, hws2all, by simp, ?_⟩
                            · rw [← h, hdc]
                              simp [List.append_assoc]
                            · intro x hx
                              rcases List.mem_cons.mp hx with rfl | hx
                              · exact hw.1.1
                              · rcases List.mem_cons.mp hx with rfl | hx
                                · exact hw.1.2
                                · rcases List.mem_cons.mp hx with rfl | hx
                                  · exact hw.2
                                  · simp at hx
                            · intro x hx
                              rcases List.mem_cons.mp hx with rfl | hx
                              · exact hdig.1.1.1
                              · rcases List.mem_cons.mp hx with rfl | hx
                                · exact hdig.1.1.2
                                · rcases List.mem_cons.mp hx with rfl | hx
                                  · exact hdig.1.2
                                  · rcases List.mem_cons.mp hx with rfl | hx
                                    · exact hdig.2
                                    · simp at hx
                        · simp only [hdig, Bool.false_eq_true, if_false] at h
                          exact absurd h (by simp)
        · simp only [matchDateAt] at h
          rw [if_neg hw] at h
          exact absurd h (by simp)

theorem matchDateAt_complete {m : List Char} (hm : DateShape m) (rest : List Char) :
    matchDateAt (m ++ rest) = some m := by
  obtain ⟨w3, ws1, day, ws2, year, hmeq, h3, hwall, hws1ne, hws1all, hdaylen, hdaydig,
    hws2ne, hws2all, hyear4, hyeardig⟩ := hm
  obtain ⟨a, b, c, h3'⟩ := List.length_eq_three.mp h3
  subst h3'
  obtain ⟨y1, y2, y3, y4, hy⟩ := list_length_eq_four hyear4
  subst hy
  subst hmeq
  have hdayne : day ≠ [] := by
    rcases hdaylen with h | h <;> (intro he; subst he; simp at h)
  obtain ⟨d0, dtl, hday0⟩ := List.exists_cons_of_ne_nil hdayne
  have hd0 : d0.isDigit = true := hdaydig d0 (by rw [hday0]; simp)
  have ha : isWordChar a = true := hwall a (by simp)
  have hb : isWordChar b = true := hwall b (by simp)
  have hc : isWordChar c = true := hwall c (by simp)
  have hy1 : y1.isDigit = true := hyeardig y1 (by simp)
  have hy2 : y2.isDigit = true := hyeardig y2 (by simp)
  have hy3 : y3.isDigit = true := hyeardig y3 (by simp)
  have hy4 : y4.isDigit = true := hyeardig y4 (by simp)
  have hshape :
      ([a, b, c] ++ ws1 ++ day ++ [','] ++ ws2 ++ [y1, y2, y3, y4]) ++ rest =
        a :: b :: c :: (ws1 ++ (day ++ ',' :: (ws2 ++ (y1 :: y2 :: y3 :: y4 :: rest)))) := by
    simp [List.append_assoc]
  rw [hshape]
  have htw1 : (ws1 ++ (day ++ ',' :: (ws2 ++ (y1 :: y2 :: y3 :: y4 :: rest)))).takeWhile
      isPySpace = ws1 := by
    rw [takeWhile_append_all _ hws1all, hday0, List.cons_append,
      takeWhile_eq_nil_of_head _ (isPySpace_false_of_isDigit hd0), List.append_nil]
  have hdw1 : (ws1 ++ (day ++ ',' :: (ws2 ++ (y1 :: y2 :: y3 :: y4 :: rest)))).dropWhile
      isPySpace = day ++ ',' :: (ws2 ++ (y1 :: y2 :: y3 :: y4 :: rest)) := by
    rw [dropWhile_append_all _ hws1all, hday0, List.cons_append,
      dropWhile_eq_self_of_head _ (isPySpace_false_of_isDigit hd0), ← List.cons_append,
      ← hday0]
  have hmdc : matchDayComma (day ++ ',' :: (ws2 ++ (y1 :: y2 :: y3 :: y4 :: rest))) =
      some (day ++ [','], ws2 ++ (y1 :: y2 :: y3 :: y4 :: rest)) :=
    matchDayComma_complete _ hdaylen hdaydig
  have htw2 : (ws2 ++ (y1 :: y2 :: y3 :: y4 :: rest)).takeWhile isPySpace = ws2 := by
    rw [takeWhile_append_all _ hws2all,
      takeWhile_eq_nil_of_head _ (isPySpace_false_of_isDigit hy1), List.append_nil]
  have hdw2 : (ws2 ++ (y1 :: y2 :: y3 :: y4 :: rest)).dropWhile isPySpace =
      y1 :: y2 :: y3 :: y4 :: rest := by
    rw [dropWhile_append_all _ hws2all,
      dropWhile_eq_self_of_head _ (isPySpace_false_of_isDigit hy1)]
  have hws1f : ws1.isEmpty = false := by
    cases ws1 with
    | nil => exact absurd rfl hws1ne
    | cons x xs => rfl
  have hws2f : ws2.isEmpty = false := by
    cases ws2 with
    | nil => exact absurd rfl hws2ne
    | cons x xs => rfl
  simp only [matchDateAt, ha, hb, hc, Bool.and_self, if_true, htw1, hdw1, hws1f,
    Bool.false_eq_true, if_false, hmdc, htw2, hdw2, hws2f, hy1, hy2, hy3, hy4,
    Option.some_inj]
  simp [List.append_assoc]

/-! ## Properties of the date search (`re.search` over start positions) -/

theorem dateSearchGo_sound {cs : List Char} {k : Nat} {m : List Char}
    (h : dateSearchGo cs = some (k, m)) :
    matchDateAt (cs.drop k) = some m ∧ ∀ j < k, matchDateAt (cs.drop j) = none := by
  induction cs generalizing k with
  | nil => simp [dateSearchGo] at h
  | cons c cs ih =>
    cases hm : matchDateAt (c :: cs) with
    | some m0 =>
      simp only [dateSearchGo, hm, Option.some_inj] at h
      obtain ⟨hk, hm0⟩ := Prod.mk.injEq .. ▸ h
      subst hk; subst hm0
      exact ⟨by simpa using hm, by omega⟩
    | none =>
      simp only [dateSearchGo, hm] at h
      rw [Option.map_eq_some'] at h
      obtain ⟨p, hp, hpe⟩ := h
      obtain ⟨hk, hm2⟩ := Prod.mk.injEq .. ▸ hpe
      subst hk; subst hm2
      obtain ⟨ih1, ih2⟩ := ih hp
      refine ⟨by simpa using ih1, ?_⟩
      intro j hj
      cases j with
      | zero => simpa using hm
      | succ j' =>
        have : j' < p.1 := by omega
        simpa using ih2 j' this

theorem dateSearchGo_isSome_of_match {cs : List Char} {k : Nat} {m : List Char}
    (h : matchDateAt (cs.drop k) = some m) : (dateSearchGo cs).isSome = true := by
  induction cs generalizing k with
  | nil =>
    rw [List.drop_nil] at h
    simp [matchDateAt] at h
  | cons c cs ih =>
    cases k with
    | zero =>
      rw [List.drop_zero] at h
      simp [dateSearchGo, h]
    | succ k' =>
      rw [List.drop_succ_cons] at h
      have hs := ih h
      cases hm : matchDateAt (c :: cs) with
      | some m0 => simp [dateSearchGo, hm]
      | none =>
        simp only [dateSearchGo, hm]
        simpa using hs

theorem dateSearchGo_isSome_iff (cs : List Char) :
    (dateSearchGo cs).isSome = true ↔ ContainsWordDate cs := by
  constructor
  · intro h
    rw [Option.isSome_iff_exists] at h
    obtain ⟨km, hkm⟩ := h
    have hkm2 : dateSearchGo cs = some (km.1, km.2) := by rw [hkm]
    obtain ⟨hmatch, _⟩ := dateSearchGo_sound hkm2
    obtain ⟨⟨rest, hrest⟩, hshape⟩ := matchDateAt_sound hmatch
    exact ⟨cs.take km.1, km.2, rest,
      by rw [List.append_assoc, ← hrest, List.take_append_drop], hshape⟩
  · rintro ⟨pre, m, rest, heq, hshape⟩
    have hdrop : cs.drop pre.length = m ++ rest := by
      rw [heq, List.append_assoc]
      exact List.drop_left' rfl
    have hmatch : matchDateAt (cs.drop pre.length) = some m := by
      rw [hdrop]
      exact matchDateAt_complete hshape rest
    exact dateSearchGo_isSome_of_match hmatch

/-! ## Substring facts used for the month-name counterexample -/

theorem containsSeq_of_prefix_at {n hay : List Char} {j : Nat}
    (hp : n.isPrefixOf (hay.drop j) = true) : containsSeq n hay = true := by
  induction hay generalizing j with
  | nil =>
    rw [List.drop_nil] at hp
    simp [containsSeq, hp]
  | cons c cs ih =>
    cases j with
    | zero =>
      rw [List.drop_zero] at hp
      simp [containsSeq, hp]
    | succ j' =>
      rw [List.drop_succ_cons] at hp
      simp [containsSeq, ih hp]

theorem month_found_of_containsMonthDate {cs : List Char} (h : ContainsMonthDate cs) :
    monthNames.any (fun mn => containsSeq mn cs) = true := by
  obtain ⟨pre, m, rest, heq, w3, ws1, day, ws2, year, hmeq, hmem, _⟩ := h
  rw [List.any_eq_true]
  refine ⟨w3, hmem, ?_⟩
  have hdrop : cs.drop pre.length = w3 ++ (ws1 ++ day ++ [','] ++ ws2 ++ year ++ rest) := by
    rw [heq, hmeq]
    rw [show pre ++ (w3 ++ ws1 ++ day ++ [','] ++ ws2 ++ year) ++ rest =
      pre ++ (w3 ++ (ws1 ++ day ++ [','] ++ ws2 ++ year ++ rest)) by simp [List.append_assoc]]
    exact List.drop_left' rfl
  have hpre : w3.isPrefixOf (cs.drop pre.length) = true := by
    rw [hdrop, prefixOf_iff]
    exact ⟨_, rfl⟩
  exact containsSeq_of_prefix_at hpre

/-! ## Characterization of `pySplitSep` (Python `str.split(sep)`) -/

theorem firstOccurGo_cons (sep : List Char) (i : Nat) (c : Char) (cs : List Char) :
    firstOccurGo sep i (c :: cs) =
      if sep.isPrefixOf (c :: cs) then some i else firstOccurGo sep (i + 1) cs := by
  rw [firstOccurGo]

theorem firstOccurGo_nil (sep : List Char) (i : Nat) :
    firstOccurGo sep i [] = if sep.isPrefixOf [] then some i else none := by
  rw [firstOccurGo]

theorem isPrefixOf_nil_iff {sep : List Char} : sep.isPrefixOf ([] : List Char) = true ↔ sep = [] := by
  cases sep <;> simp [List.isPrefixOf]

theorem firstOccurGo_shift (sep : List Char) (i : Nat) (l : List Char) :
    firstOccurGo sep i l = (firstOccurGo sep 0 l).map (· + i) := by
  induction l generalizing i with
  | nil =>
    rw [firstOccurGo_nil, firstOccurGo_nil]
    by_cases h : sep.isPrefixOf ([] : List Char) <;> simp [h]
  | cons c cs ih =>
    rw [firstOccurGo_cons, firstOccurGo_cons]
    by_cases h : sep.isPrefixOf (c :: cs)
    · simp [h]
    · simp only [h, Bool.false_eq_true, if_false]
      rw [ih 1, ih (i + 1)]
      cases firstOccurGo sep 0 cs with
      | none => simp
      | some a =>
        simp only [Option.map_some']
        rw [Option.some_inj]
        omega

theorem splitSepGo_succ (sep : List Char) (fuel : Nat) (acc l : List Char) :
    splitSepGo sep (fuel + 1) acc l =
      if !sep.isEmpty && sep.isPrefixOf l then
        acc.reverse :: splitSepGo sep fuel [] (l.drop sep.length)
      else
        match l with
        | [] => [acc.reverse]
        | c :: cs => splitSepGo sep fuel (c :: acc) cs := by
  rw [splitSepGo.eq_def]

theorem splitSepGo_ne_nil (sep : List Char) (fuel : Nat) (acc l : List Char) :
    splitSepGo sep fuel acc l ≠ [] := by
  cases fuel with
  | zero => simp [splitSepGo]
  | succ f =>
    rw [splitSepGo_succ]
    by_cases h : (!sep.isEmpty && sep.isPrefixOf l) = true
    · simp [h]
    · simp only [h, Bool.false_eq_true, if_false]
      cases l with
      | nil => simp
      | cons c cs => exact splitSepGo_ne_nil sep f (c :: acc) cs

theorem pySplitSep_ne_nil (sep l : List Char) : pySplitSep sep l ≠ [] :=
  splitSepGo_ne_nil sep (l.length + 1) [] l

theorem splitSepGo_canon {sep : List Char} (hsep : sep ≠ []) :
    ∀ (fuel : Nat) (acc l : List Char), l.length < fuel →
    splitSepGo sep fuel acc l =
      (match firstOccurGo sep 0 l with
       | none => [acc.reverse ++ l]
       | some k => (acc.reverse ++ l.take k) :: pySplitSep sep (l.drop (k + sep.length))) := by
  intro fuel
  induction fuel using Nat.strong_induction_on with
  | _ fuel ih =>
    intro acc l hlen
    cases fuel with
    | zero => omega
    | succ f =>
      have hne : sep.isEmpty = false := by
        cases sep with
        | nil => exact absurd rfl hsep
        | cons s ss => rfl
      rw [splitSepGo_succ]
      by_cases hp : sep.isPrefixOf l = true
      · simp only [hne, Bool.not_false, hp, Bool.and_self, if_true]
        have hk0 : firstOccurGo sep 0 l = some 0 := by
          cases l with
          | nil =>
            rw [isPrefixOf_nil_iff] at hp
            exact absurd hp hsep
          | cons c cs => rw [firstOccurGo_cons, if_pos hp]
        rw [hk0]
        have hlne : l ≠ [] := by
          intro he
          subst he
          rw [isPrefixOf_nil_iff] at hp
          exact absurd hp hsep
        have hsl : 1 ≤ sep.length := by
          cases sep with
          | nil => exact absurd rfl hsep
          | cons s ss => simp
        have hll : 1 ≤ l.length := by
          cases l with
          | nil => exact absurd rfl hlne
          | cons c cs => simp
        have hdlen : (l.drop sep.length).length < f := by
          rw [List.length_drop]
          omega
        have hstep : splitSepGo sep f [] (l.drop sep.length) =
            pySplitSep sep (l.drop sep.length) := by
          rw [ih f (by omega) [] _ hdlen]
          rw [show pySplitSep sep (l.drop sep.length) =
            splitSepGo sep ((l.drop sep.length).length + 1) [] (l.drop sep.length) from rfl]
          rw [ih ((l.drop sep.length).length + 1) (by omega) [] _ (by omega)]
        rw [hstep]
        simp
      · simp only [hne, Bool.not_false, Bool.true_and, hp, Bool.false_eq_true, if_false]
        cases l with
        | nil =>
          rw [firstOccurGo_nil]
          simp only [isPrefixOf_nil_iff]
          simp only [show (sep = []) = False by simp [hsep], if_false]
          simp
        | cons c cs =>
          have hclen : cs.length < f := by
            simp only [List.length_cons] at hlen
            omega
          have hred : (match c :: cs with
              | [] => [acc.reverse]
              | c :: cs => splitSepGo sep f (c :: acc) cs) =
              splitSepGo sep f (c :: acc) cs := rfl
          rw [hred]
          rw [ih f (by omega) (c :: acc) cs hclen]
          rw [firstOccurGo_cons, if_neg (by simp [hp]), firstOccurGo_shift sep 1 cs]
          cases firstOccurGo sep 0 cs with
          | none => simp
          | some k =>
            simp only [Option.map_some']
            have harith : k + 1 + sep.length = (k + sep.length) + 1 := by omega
            rw [List.take_succ_cons, harith, List.drop_succ_cons]
            simp

theorem pySplitSep_of_none {sep l : List Char} (hsep : sep ≠ [])
    (h : firstOccurGo sep 0 l = none) : pySplitSep sep l = [l] := by
  rw [show pySplitSep sep l = splitSepGo sep (l.length + 1) [] l from rfl]
  rw [splitSepGo_canon hsep (l.length + 1) [] l (by omega), h]
  simp

theorem pySplitSep_of_some {sep l : List Char} {k : Nat} (hsep : sep ≠ [])
    (h : firstOccurGo sep 0 l = some k) :
    pySplitSep sep l = l.take k :: pySplitSep sep (l.drop (k + sep.length)) := by
  rw [show pySplitSep sep l = splitSepGo sep (l.length + 1) [] l from rfl]
  rw [splitSepGo_canon hsep (l.length + 1) [] l (by omega), h]
  simp

/-! ## The matched date text first occurs at the match position -/

theorem firstOccurGo_of_first {sep l : List Char} {k : Nat}
    (hk : sep.isPrefixOf (l.drop k) = true)
    (hj : ∀ j < k, sep.isPrefixOf (l.drop j) = false) :
    firstOccurGo sep 0 l = some k := by
  induction l generalizing k with
  | nil =>
    rw [List.drop_nil] at hk
    have hk0 : k = 0 := by
      by_contra hne
      have h0 := hj 0 (by omega)
      rw [List.drop_nil] at h0
      rw [h0] at hk
      exact absurd hk (by simp)
    subst hk0
    rw [firstOccurGo_nil, if_pos hk]
  | cons c cs ih =>
    cases k with
    | zero =>
      rw [List.drop_zero] at hk
      rw [firstOccurGo_cons, if_pos hk]
    | succ k' =>
      have h0 := hj 0 (by omega)
      rw [List.drop_zero] at h0
      rw [firstOccurGo_cons, if_neg (by simp [h0]), firstOccurGo_shift sep 1 cs]
      rw [List.drop_succ_cons] at hk
      have ihr := ih hk (fun j hjlt => by
        have := hj (j + 1) (by omega)
        rwa [List.drop_succ_cons] at this)
      rw [ihr]
      simp

/-- A string of the date-pattern shape is nonempty. -/
theorem DateShape_ne_nil {m : List Char} (h : DateShape m) : m ≠ [] := by
  obtain ⟨w3, ws1, day, ws2, year, hmeq, h3, _⟩ := h
  intro he
  rw [he] at hmeq
  have := congrArg List.length hmeq
  simp [h3] at this
  omega

/-- Where the date search succeeds, the matched text's first occurrence in
the line is exactly the match position (an earlier occurrence would itself
match, contradicting the search's left-to-right order). -/
theorem firstOccur_of_dateSearch {cs : List Char} {k : Nat} {m : List Char}
    (h : dateSearchGo cs = some (k, m)) : firstOccurGo m 0 cs = some k := by
  obtain ⟨hmatch, hmin⟩ := dateSearchGo_sound h
  obtain ⟨⟨rest0, hrest0⟩, hshape⟩ := matchDateAt_sound hmatch
  refine firstOccurGo_of_first ?_ ?_
  · rw [hrest0, prefixOf_iff]
    exact ⟨_, rfl⟩
  · intro j hjk
    by_contra hne
    have hpj : m.isPrefixOf (cs.drop j) = true := by
      cases hb : m.isPrefixOf (cs.drop j) with
      | true => rfl
      | false => exact absurd hb hne
    rw [prefixOf_iff] at hpj
    obtain ⟨t, ht⟩ := hpj
    have : matchDateAt (cs.drop j) = some m := by
      rw [← ht]
      exact matchDateAt_complete hshape t
    rw [hmin j hjk] at this
    exact absurd this (by simp)

/-! ## Unfolding the heading parser in its two main branches -/

theorem extract_date_branch {text first : List Char} {rest : List (List Char)}
    {k : Nat} {m : List Char}
    (hlines : headingLines text = first :: rest)
    (hds : dateSearchGo first = some (k, m)) :
    extract_tournament_info text =
      { tournament := some (pyStrip ((pySplitSep m first).getD 0 []))
        date := some m
        address :=
          match addressFromPieces (pySplitSep m first) with
          | some a => some a
          | none => if rest.isEmpty then none else addressFallback (some m) rest
        td := tdFirst (first :: rest) } := by
  unfold extract_tournament_info
  rw [hlines]
  simp only [hds]

theorem extract_no_date_branch {text first : List Char} {rest : List (List Char)}
    (hlines : headingLines text = first :: rest)
    (hds : dateSearchGo first = none) :
    (extract_tournament_info text).tournament = some first := by
  unfold extract_tournament_info
  rw [hlines]
  simp only [hds]
  cases hfd : findDateInLines rest with
  | none => simp [hfd]
  | some lm =>
    cases haf : addressFromPieces (pySplitSep lm.2 lm.1) <;> simp [hfd, haf]

/-! ## The pieces of `first_line.split(date)` -/

theorem pySplitSep_date_pieces {first m : List Char} {k : Nat}
    (hds : dateSearchGo first = some (k, m)) :
    (pySplitSep m first).getD 0 [] = first.take k ∧
    (pySplitSep m first).getD 1 [] = segmentUntil m (first.drop (k + m.length)) ∧
    1 < (pySplitSep m first).length := by
  have hshape : DateShape m := (matchDateAt_sound (dateSearchGo_sound hds).1).2
  have hmne : m ≠ [] := DateShape_ne_nil hshape
  have hfo := firstOccur_of_dateSearch hds
  rw [pySplitSep_of_some hmne hfo]
  refine ⟨rfl, ?_, ?_⟩
  · rw [List.getD_cons_succ]
    cases hfo2 : firstOccurGo m 0 (first.drop (k + m.length)) with
    | none =>
      rw [pySplitSep_of_none hmne hfo2]
      simp [segmentUntil, hfo2]
    | some k2 =>
      rw [pySplitSep_of_some hmne hfo2]
      simp [segmentUntil, hfo2]
  · have hnn := pySplitSep_ne_nil m (first.drop (k + m.length))
    cases hsp : pySplitSep m (first.drop (k + m.length)) with
    | nil => exact absurd hsp hnn
    | cons a as => simp [hsp]

/-- All the facts claims C5 and C10 need about the date-in-first-line
branch of the heading parser, stated against the index description of the
split pieces. -/
theorem extract_first_line_date_facts (text first : List Char)
    (rest : List (List Char)) (k : Nat) (m : List Char)
    (hlines : headingLines text = first :: rest)
    (hds : dateSearchGo first = some (k, m)) :
    (extract_tournament_info text).tournament = some (pyStrip (first.take k)) ∧
    ¬ m <:+: pyStrip (first.take k) ∧
    (extract_tournament_info text).date = some m ∧
    (pyStrip (segmentUntil m (first.drop (k + m.length))) ≠ [] →
      (extract_tournament_info text).address =
        some (pyStrip (segmentUntil m (first.drop (k + m.length))))) := by
  obtain ⟨hp0, hp1, hplen⟩ := pySplitSep_date_pieces hds
  obtain ⟨hmatch, hmin⟩ := dateSearchGo_sound hds
  obtain ⟨⟨r0, hr0⟩, hshape⟩ := matchDateAt_sound hmatch
  have hmne : m ≠ [] := DateShape_ne_nil hshape
  rw [extract_date_branch hlines hds]
  refine ⟨by rw [hp0], ?_, rfl, ?_⟩
  · intro hinf
    have h2 : m <:+: first.take k := hinf.trans (pyStrip_within (first.take k))
    obtain ⟨s, t, hst⟩ := h2
    have hkl : k < first.length := by
      by_contra hge
      have hdp : first.drop k = [] := List.drop_eq_nil_of_le (by omega)
      rw [hdp] at hr0
      cases m with
      | nil => exact absurd rfl hmne
      | cons a as => simp at hr0
    have hfirst : first = s ++ (m ++ (t ++ first.drop k)) := by
      conv_lhs => rw [← List.take_append_drop k first]
      rw [← hst]
      simp [List.append_assoc]
    have hdropj : first.drop s.length = m ++ (t ++ first.drop k) := by
      conv_lhs => rw [hfirst]
      exact List.drop_left' rfl
    have hm1 : 1 ≤ m.length := by
      cases m with
      | nil => exact absurd rfl hmne
      | cons a as => simp
    have hslt : s.length < k := by
      have hlen := congrArg List.length hst
      simp only [List.length_append, List.length_take] at hlen
      have hminval : min k first.length = k := Nat.min_eq_left (by omega)
      omega
    have hcontra : matchDateAt (first.drop s.length) = some m := by
      rw [hdropj]
      exact matchDateAt_complete hshape _
    rw [hmin s.length hslt] at hcontra
    exact absurd hcontra (by simp)
  · intro hne
    have haf : addressFromPieces (pySplitSep m first) =
        some (pyStrip (segmentUntil m (first.drop (k + m.length)))) := by
      unfold addressFromPieces
      rw [if_pos hplen, hp1]
      have hf : (pyStrip (segmentUntil m (first.drop (k + m.length)))).isEmpty = false := by
        cases hc : pyStrip (segmentUntil m (first.drop (k + m.length))) with
        | nil => exact absurd hc hne
        | cons a as => rfl
      simp [hf]
    rw [haf]

/-! ## Claim C5 -/

/-- C5 (counterexample): the claim says the trimmed text after the matched
date becomes the address.  On a first line in which the matched date text
occurs twice, `first_line.split(date)[1]` is only the text *between* the
two occurrences: here the text after the match, trimmed, is
`BB Jun 1, 2025 CC`, but the parser stores `BB`. -/
theorem C5_counterexample :
    dateSearchGo ("AA Jun 1, 2025 BB Jun 1, 2025 CC".toList) =
      some (3, "Jun 1, 2025".toList) ∧
    pyStrip (("AA Jun 1, 2025 BB Jun 1, 2025 CC".toList).drop 14) =
      "BB Jun 1, 2025 CC".toList ∧
    (extract_tournament_info ("AA Jun 1, 2025 BB Jun 1, 2025 CC".toList)).address =
      some ("BB".toList) ∧
    ("BB".toList : List Char) ≠ "BB Jun 1, 2025 CC".toList := by
  exact ⟨rfl, rfl, rfl, by decide⟩

/-- C5 (amended): when the date pattern matches inside the first heading
line at position `k` with text `m`, the tournament name is the text before
the match, trimmed, and never contains the date fragment; the matched text
becomes the date; and the trimmed text after the match, truncated at the
next occurrence of the matched date text (`segmentUntil`), becomes the
address when nonempty. -/
theorem C5_date_priority (text first : List Char) (rest : List (List Char))
    (k : Nat) (m : List Char)
    (hlines : headingLines text = first :: rest)
    (hds : dateSearchGo first = some (k, m)) :
    (extract_tournament_info text).tournament = some (pyStrip (first.take k)) ∧
    ¬ m <:+: pyStrip (first.take k) ∧
    (extract_tournament_info text).date = some m ∧
    (pyStrip (segmentUntil m (first.drop (k + m.length))) ≠ [] →
      (extract_tournament_info text).address =
        some (pyStrip (segmentUntil m (first.drop (k + m.length))))) :=
  extract_first_line_date_facts text first rest k m hlines hds

/-- C5 (witness): the amended theorem applied to the spec's date-priority
example yields name `Spring Open`, date `Jun 14, 2025`, address
`123 Main St`. -/
theorem C5_witness :
    (extract_tournament_info ("Spring Open Jun 14, 2025 123 Main St".toList)).tournament =
      some ("Spring Open".toList) ∧
    (extract_tournament_info ("Spring Open Jun 14, 2025 123 Main St".toList)).date =
      some ("Jun 14, 2025".toList) ∧
    (extract_tournament_info ("Spring Open Jun 14, 2025 123 Main St".toList)).address =
      some ("123 Main St".toList) := by
  have h := C5_date_priority ("Spring Open Jun 14, 2025 123 Main St".toList)
    ("Spring Open Jun 14, 2025 123 Main St".toList) [] 12 ("Jun 14, 2025".toList) rfl rfl
  exact ⟨h.1.trans (by decide), h.2.2.1, (h.2.2.2 (by decide)).trans (by decide)⟩

/-! ## Claim C6 -/

/-- C6: the heading parser is total by construction (its embedding returns
a plain `TournamentInfo`, faithful because the Python body can raise no
exception: every index is guarded and `split` is called on the nonempty
matched date), and for every input with at least one non-blank line the
name field is present — equal to the whole first line whenever the date
pattern finds no match in it — while date, address and TD are
`Option`-valued and absent when not detected. -/
theorem C6_total_name_present (text first : List Char) (rest : List (List Char))
    (hlines : headingLines text = first :: rest) :
    (extract_tournament_info text).tournament.isSome = true ∧
    (dateSearchGo first = none → (extract_tournament_info text).tournament = some first) := by
  cases hds : dateSearchGo first with
  | none =>
    have h := extract_no_date_branch hlines hds
    exact ⟨by rw [h]; rfl, fun _ => h⟩
  | some km =>
    have hds2 : dateSearchGo first = some (km.1, km.2) := by rw [hds]
    have h := extract_date_branch hlines hds2
    refine ⟨by rw [h]; rfl, ?_⟩
    intro hnone
    exact absurd hnone (by simp)

/-- C6 (witness): the theorem applied to a two-line heading with no date:
the name is the whole first line. -/
theorem C6_witness :
    (extract_tournament_info ("Winter Open\nSomewhere".toList)).tournament.isSome = true ∧
    (extract_tournament_info ("Winter Open\nSomewhere".toList)).tournament =
      some ("Winter Open".toList) := by
  have h := C6_total_name_present ("Winter Open\nSomewhere".toList)
    ("Winter Open".toList) ["Somewhere".toList] rfl
  exact ⟨h.1, h.2 rfl⟩

/-! ## Claim C8 -/

/-- C8 (counterexample): the date regex is `\w{3}`, not a three-letter
month name: the line `xyz 1, 2025` contains no month name, yet the parser
recognizes and stores a date from it. -/
theorem C8_counterexample :
    (extract_tournament_info ("xyz 1, 2025".toList)).date =
      some ("xyz 1, 2025".toList) ∧
    ¬ ContainsMonthDate ("xyz 1, 2025".toList) := by
  refine ⟨rfl, fun h => absurd (month_found_of_containsMonthDate h) (by decide)⟩

/-- C8 (amended): a line is recognized as containing a date exactly when
it contains a substring made of three word characters (letter, digit or
underscore — the regex `\w{3}`, not necessarily a month name), whitespace,
a one-or-two-digit day, a comma, whitespace, and a four-digit year; and
when the search succeeds on the first heading line, the leftmost match is
stored verbatim as the date field. -/
theorem C8_date_recognition :
    (∀ cs : List Char, (dateSearchGo cs).isSome = true ↔ ContainsWordDate cs) ∧
    (∀ (text first : List Char) (rest : List (List Char)) (k : Nat) (m : List Char),
      headingLines text = first :: rest →
      dateSearchGo first = some (k, m) →
      (extract_tournament_info text).date = some m ∧
      first.drop k = m ++ first.drop (k + m.length) ∧
      DateShape m ∧
      ∀ j < k, matchDateAt (first.drop j) = none) := by
  refine ⟨dateSearchGo_isSome_iff, ?_⟩
  intro text first rest k m hlines hds
  obtain ⟨hmatch, hmin⟩ := dateSearchGo_sound hds
  obtain ⟨⟨r0, hr0⟩, hshape⟩ := matchDateAt_sound hmatch
  refine ⟨by rw [extract_date_branch hlines hds], ?_, hshape, hmin⟩
  have hstep : first.drop (k + m.length) = (first.drop k).drop m.length := by
    rw [List.drop_drop, Nat.add_comm]
  have hr0' : first.drop (k + m.length) = r0 := by
    rw [hstep, hr0, List.drop_left]
  rw [hr0', hr0]

/-- C8 (witness): the amended theorem at concrete inputs — a line with a
month-name date satisfies the recognition predicate, and the matched text
is stored. -/
theorem C8_witness :
    ContainsWordDate ("Spring Open Jun 14, 2025".toList) ∧
    (extract_tournament_info ("County Cup Feb 2, 2024".toList)).date =
      some ("Feb 2, 2024".toList) := by
  refine ⟨(C8_date_recognition.1 ("Spring Open Jun 14, 2025".toList)).mp rfl, ?_⟩
  exact (C8_date_recognition.2 ("County Cup Feb 2, 2024".toList)
    ("County Cup Feb 2, 2024".toList) [] 11 ("Feb 2, 2024".toList) rfl rfl).1

/-! ## Claim C10 -/

/-- C10 (counterexample): the empty-name behaviour is real (name present
but empty), but the "text after the date still becomes the address" part
breaks when the matched date text occurs twice: the text after the match,
trimmed, is `x Jun 3, 2025 y`, yet the parser stores `x`. -/
theorem C10_counterexample :
    headingLines ("  Jun 3, 2025 x Jun 3, 2025 y".toList) =
      ["Jun 3, 2025 x Jun 3, 2025 y".toList] ∧
    dateSearchGo ("Jun 3, 2025 x Jun 3, 2025 y".toList) =
      some (0, "Jun 3, 2025".toList) ∧
    (extract_tournament_info ("  Jun 3, 2025 x Jun 3, 2025 y".toList)).tournament =
      some [] ∧
    pyStrip (("Jun 3, 2025 x Jun 3, 2025 y".toList).drop 11) =
      "x Jun 3, 2025 y".toList ∧
    (extract_tournament_info ("  Jun 3, 2025 x Jun 3, 2025 y".toList)).address =
      some ("x".toList) ∧
    ("x".toList : List Char) ≠ "x Jun 3, 2025 y".toList := by
  exact ⟨rfl, rfl, rfl, rfl, rfl, by decide⟩

/-- C10 (amended): when the date pattern matches in the first heading line
and only whitespace precedes the match, the returned tournament name is
present but empty; the trimmed text after the match, truncated at the next
occurrence of the matched date text, becomes the address when nonempty. -/
theorem C10_empty_name (text first : List Char) (rest : List (List Char))
    (k : Nat) (m : List Char)
    (hlines : headingLines text = first :: rest)
    (hds : dateSearchGo first = some (k, m))
    (hws : ∀ c ∈ first.take k, isPySpace c = true) :
    (extract_tournament_info text).tournament = some [] ∧
    (pyStrip (segmentUntil m (first.drop (k + m.length))) ≠ [] →
      (extract_tournament_info text).address =
        some (pyStrip (segmentUntil m (first.drop (k + m.length))))) := by
  obtain ⟨h1, _, _, h4⟩ := extract_first_line_date_facts text first rest k m hlines hds
  rw [pyStrip_eq_nil_of_all hws] at h1
  exact ⟨h1, h4⟩

/-- C10 (witness): a heading starting with whitespace and the date: name
present but empty, the trailing text becomes the address. -/
theorem C10_witness :
    (extract_tournament_info ("  Jun 3, 2025 Foo".toList)).tournament = some [] ∧
    (extract_tournament_info ("  Jun 3, 2025 Foo".toList)).address =
      some ("Foo".toList) := by
  have h := C10_empty_name ("  Jun 3, 2025 Foo".toList) ("Jun 3, 2025 Foo".toList) []
    0 ("Jun 3, 2025".toList) rfl rfl (by simp)
  exact ⟨h.1, (h.2 (by decide)).trans (by decide)⟩

/-! ## Structure of the round-results loop -/

theorem roundsGo_length (parts : List (List Char)) (j : Nat)
    (rcs : List (Nat × List Char)) :
    (roundsGo parts j rcs).length = min rcs.length (parts.length - j) := by
  induction rcs generalizing j with
  | nil => simp [roundsGo]
  | cons rc rest ih =>
    simp only [roundsGo]
    by_cases hj : j < parts.length
    · rw [if_pos hj, List.length_cons, ih (j + 1), List.length_cons]
      omega
    · rw [if_neg hj, ih (j + 1), List.length_cons]
      omega

theorem roundsGo_getD (parts : List (List Char)) (j : Nat)
    (rcs : List (Nat × List Char)) :
    ∀ i, i < (roundsGo parts j rcs).length →
      (roundsGo parts j rcs).getD i ⟨[], []⟩ =
        ⟨(rcs.getD i (0, [])).2, parts.getD (j + i) []⟩ := by
  induction rcs generalizing j with
  | nil => intro i hi; simp [roundsGo] at hi
  | cons rc rest ih =>
    intro i hi
    simp only [roundsGo] at hi ⊢
    by_cases hj : j < parts.length
    · rw [if_pos hj] at hi ⊢
      cases i with
      | zero => simp
      | succ i' =>
        rw [List.getD_cons_succ, List.getD_cons_succ]
        rw [List.length_cons] at hi
        have hstep := ih (j + 1) i' (by omega)
        have harith : j + 1 + i' = j + (i' + 1) := by omega
        rw [harith] at hstep
        exact hstep
    · rw [if_neg hj] at hi
      rw [roundsGo_length] at hi
      omega

/-! ## Inversion lemmas for the section parser -/

theorem splitOnChar_ne_nil (sep : Char) (l : List Char) : splitOnChar sep l ≠ [] := by
  cases l with
  | nil => simp [splitOnChar]
  | cons c cs =>
    simp only [splitOnChar]
    by_cases hc : c = sep
    · simp [hc]
    · rw [if_neg hc]
      cases splitOnChar sep cs <;> simp

theorem parse_section_results_ok {text : List Char} {res : List Player}
    (h : parse_section_results text = .ok res) :
    ∃ header restLines, splitOnChar '\n' (pyStrip text) = header :: restLines ∧
      parseRows (round_columns (pyStrip header)) restLines = .ok res := by
  unfold parse_section_results at h
  cases hsp : splitOnChar '\n' (pyStrip text) with
  | nil => exact absurd hsp (splitOnChar_ne_nil _ _)
  | cons header restLines =>
    rw [hsp] at h
    exact ⟨header, restLines, rfl, h⟩

theorem parseRows_mem {rcs : List (Nat × List Char)} {ls : List (List Char)}
    {res : List Player} (h : parseRows rcs ls = .ok res) :
    ∀ p ∈ res, ∃ l ∈ ls, parseRow rcs l = .ok (some p) := by
  induction ls generalizing res with
  | nil =>
    simp only [parseRows, Except.ok.injEq] at h
    subst h
    intro p hp
    simp at hp
  | cons l ls ih =>
    unfold parseRows at h
    cases hr : parseRow rcs l with
    | error e => rw [hr] at h; exact absurd h (by simp)
    | ok po =>
      rw [hr] at h
      cases po with
      | none =>
        simp only at h
        intro p hp
        obtain ⟨l', hl', hpl⟩ := ih h p hp
        exact ⟨l', List.mem_cons_of_mem _ hl', hpl⟩
      | some q =>
        simp only at h
        cases hrest : parseRows rcs ls with
        | error e => rw [hrest] at h; exact absurd h (by simp)
        | ok res' =>
          rw [hrest] at h
          simp only [Except.ok.injEq] at h
          subst h
          intro p hp
          rcases List.mem_cons.mp hp with rfl | hp
          · exact ⟨l, by simp, by rw [hr]⟩
          · obtain ⟨l', hl', hpl⟩ := ih hrest p hp
            exact ⟨l', List.mem_cons_of_mem _ hl', hpl⟩

theorem findIdx_idMatch_spec {parts : List (List Char)} {ne : Nat}
    (h : List.findIdx? idMatch parts = some ne) :
    ne < parts.length ∧ idMatch (parts.getD ne []) = true ∧
    ∀ j < ne, idMatch (parts.getD j []) = false := by
  rw [List.findIdx?_eq_some_iff_getElem] at h
  obtain ⟨hlt, hp, hj⟩ := h
  refine ⟨hlt, ?_, ?_⟩
  · rw [List.getD_eq_getElem?_getD, List.getElem?_eq_getElem hlt]
    simpa using hp
  · intro j hji
    have hfalse := hj j hji
    rw [List.getD_eq_getElem?_getD, List.getElem?_eq_getElem (Nat.lt_trans hji hlt)]
    simpa using hfalse

theorem parseRowParts_ok_some {rcs : List (Nat × List Char)}
    {parts : List (List Char)} {p : Player}
    (h : parseRowParts rcs parts = .ok (some p)) :
    ∃ ne st e g c,
      List.findIdx? idMatch parts = some ne ∧ 2 ≤ ne ∧
      10 ≤ parts.length ∧
      pyInt? (parts.getD 0 []) = some p.pos ∧
      ratingStages parts (ne + 1) = .ok (st, e, g, c) ∧
      p = { pos := p.pos
            id := parts.getD ne []
            lastName := pyRstrip ',' (parts.getD 1 [])
            firstName := List.intercalate [' '] ((parts.drop 2).take (ne - 2))
            start := st
            endRating := e
            gms := g
            rds := roundsGo parts c rcs
            tot := totOf parts (c + rcs.length) } := by
  unfold parseRowParts at h
  by_cases h1 : parts.length < 10
  · rw [if_pos h1] at h
    exact absurd h (by simp)
  · rw [if_neg h1] at h
    cases hpos : pyInt? (parts.getD 0 []) with
    | none => rw [hpos] at h; exact absurd h (by simp)
    | some pos =>
      rw [hpos] at h
      simp only at h
      cases hfi : List.findIdx? idMatch parts with
      | none => rw [hfi] at h; exact absurd h (by simp)
      | some ne =>
        rw [hfi] at h
        simp only at h
        by_cases h2 : ne < 2
        · rw [if_pos h2] at h
          exact absurd h (by simp)
        · rw [if_neg h2] at h
          cases hrs : ratingStages parts (ne + 1) with
          | error e => rw [hrs] at h; exact absurd h (by simp)
          | ok segc =>
            rw [hrs] at h
            simp only [Except.ok.injEq, Option.some_inj] at h
            have hppos : p.pos = pos := by rw [← h]
            refine ⟨ne, segc.1, segc.2.1, segc.2.2.1, segc.2.2.2, rfl, by omega,
              by omega, by rw [hppos], by rw [hrs], ?_⟩
            rw [← h]

theorem parseRow_ok_some {rcs : List (Nat × List Char)} {line : List Char} {p : Player}
    (h : parseRow rcs line = .ok (some p)) :
    parseRowParts rcs (pySplitWs line) = .ok (some p) := by
  unfold parseRow at h
  by_cases h1 : (pyStrip line).isEmpty
  · rw [if_pos h1] at h
    exact absurd h (by simp)
  · rwa [if_neg h1] at h

/-! ## Claim C1 -/

/-- C1: for every row produced by the section parser there is a cursor
value `c` (the index after the ratings stages) such that the rounds list
pairs the i-th round-column label with the verbatim token at `c + i`, has
exactly `min (number of round columns) (tokens available from c)` entries
(rounds beyond the available tokens are omitted, never misaligned), and the
total score is the float-parse of the token at exactly
`c + (number of round columns)` when that index exists — parse failure
leaving it unset; the rating fields come from the stages before the total
token is even looked at, so its parse outcome affects no other field. -/
theorem C1_round_alignment (text : List Char) (res : List Player) (p : Player)
    (hok : parse_section_results text = .ok res) (hp : p ∈ res) :
    ∃ header restLines line ne st c,
      splitOnChar '\n' (pyStrip text) = header :: restLines ∧
      line ∈ restLines ∧
      parseRow (round_columns (pyStrip header)) line = .ok (some p) ∧
      List.findIdx? idMatch (pySplitWs line) = some ne ∧
      ratingStages (pySplitWs line) (ne + 1) = .ok (st, p.endRating, p.gms, c) ∧
      p.start = st ∧
      p.rds.length =
        min (round_columns (pyStrip header)).length ((pySplitWs line).length - c) ∧
      (∀ i, i < p.rds.length →
        p.rds.getD i ⟨[], []⟩ =
          ⟨((round_columns (pyStrip header)).getD i (0, [])).2,
            (pySplitWs line).getD (c + i) []⟩) ∧
      p.tot = (if c + (round_columns (pyStrip header)).length < (pySplitWs line).length
        then pyFloat? ((pySplitWs line).getD
          (c + (round_columns (pyStrip header)).length) [])
        else none) := by
  obtain ⟨header, restLines, hsp, hrows⟩ := parse_section_results_ok hok
  obtain ⟨line, hline, hrow⟩ := parseRows_mem hrows p hp
  have hparts := parseRow_ok_some hrow
  obtain ⟨ne, st, e, g, c, hfi, hne2, hlen, hpos, hrs, hrec⟩ := parseRowParts_ok_some hparts
  refine ⟨header, restLines, line, ne, st, c, hsp, hline, hrow, hfi, ?_, ?_, ?_, ?_, ?_⟩
  · rw [hrec]
    exact hrs
  · rw [hrec]
  · rw [hrec]
    exact roundsGo_length _ _ _
  · intro i hi
    rw [hrec] at hi ⊢
    exact roundsGo_getD _ _ _ i hi
  · rw [hrec]
    unfold totOf
    by_cases hlt : c + (round_columns (pyStrip header)).length < (pySplitWs line).length
    · have hne0 := pySplitWs_getD_ne_nil hlt
      have hf : ((pySplitWs line).getD
          (c + (round_columns (pyStrip header)).length) []).isEmpty = false := by
        cases hc : (pySplitWs line).getD (c + (round_columns (pyStrip header)).length) [] with
        | nil => exact absurd hc hne0
        | cons a as => rfl
      simp only [hlt, hf]
      simp [hlt, hf]
    · simp [hlt]

/-- C1 (witness): the theorem at a concrete two-round section. -/
theorem C1_witness :
    ∃ header restLines line ne st c,
      splitOnChar '\n' (pyStrip
        ("pos last first id start end rd1 rd2 tot\n1 Smith, John Q ABCD1234 1500 1600/9 W2 D3 zz".toList)) =
        header :: restLines ∧
      line ∈ restLines ∧
      parseRow (round_columns (pyStrip header)) line =
        .ok (some { pos := 1
                    id := "ABCD1234".toList
                    lastName := "Smith".toList
                    firstName := "John Q".toList
                    start := some 1500
                    endRating := some 1600
                    gms := some 9
                    rds := [⟨"rd1".toList, "W2".toList⟩, ⟨"rd2".toList, "D3".toList⟩]
                    tot := none }) ∧
      List.findIdx? idMatch (pySplitWs line) = some ne ∧
      ratingStages (pySplitWs line) (ne + 1) =
        .ok (st, (some 1600 : Option Int), (some 9 : Option Int), c) ∧
      ({ pos := 1
         id := "ABCD1234".toList
         lastName := "Smith".toList
         firstName := "John Q".toList
         start := some 1500
         endRating := some 1600
         gms := some 9
         rds := [⟨"rd1".toList, "W2".toList⟩, ⟨"rd2".toList, "D3".toList⟩]
         tot := none } : Player).start = st ∧
      (2 : Nat) = min (round_columns (pyStrip header)).length ((pySplitWs line).length - c) ∧
      (∀ i, i < (2 : Nat) →
        ([⟨"rd1".toList, "W2".toList⟩, ⟨"rd2".toList, "D3".toList⟩] :
            List RoundResult).getD i ⟨[], []⟩ =
          ⟨((round_columns (pyStrip header)).getD i (0, [])).2,
            (pySplitWs line).getD (c + i) []⟩) ∧
      (none : Option PyFloat) =
        (if c + (round_columns (pyStrip header)).length < (pySplitWs line).length
          then pyFloat? ((pySplitWs line).getD
            (c + (round_columns (pyStrip header)).length) [])
          else none) :=
  C1_round_alignment
    ("pos last first id start end rd1 rd2 tot\n1 Smith, John Q ABCD1234 1500 1600/9 W2 D3 zz".toList)
    [{ pos := 1
       id := "ABCD1234".toList
       lastName := "Smith".toList
       firstName := "John Q".toList
       start := some 1500
       endRating := some 1600
       gms := some 9
       rds := [⟨"rd1".toList, "W2".toList⟩, ⟨"rd2".toList, "D3".toList⟩]
       tot := none }]
    { pos := 1
      id := "ABCD1234".toList
      lastName := "Smith".toList
      firstName := "John Q".toList
      start := some 1500
      endRating := some 1600
      gms := some 9
      rds := [⟨"rd1".toList, "W2".toList⟩, ⟨"rd2".toList, "D3".toList⟩]
      tot := none }
    rfl (by simp)

/-! ## Claim C2 -/

/-- C2 (counterexample): the code scans for the eight-character anchor from
token index 0, not 1.  When token 0 is itself eight digits (a position such
as `12345678`, which parses as an integer), the scan finds it at index 0
and the row is dropped — although a valid anchor sits at index 4, so the
claim's scan-from-index-1 algorithm (its first match at offset 3 of the
tail, overall index 4 ≥ 2) would keep the row with lastName `Smith`. -/
theorem C2_counterexample :
    (pySplitWs ("12345678 Smith, John Q ABCD1234 1500 1600/9 W2 D3 zz".toList)).length = 10 ∧
    pyInt? ("12345678".toList) = some 12345678 ∧
    List.findIdx? idMatch
      ((pySplitWs ("12345678 Smith, John Q ABCD1234 1500 1600/9 W2 D3 zz".toList)).drop 1) =
      some 3 ∧
    List.findIdx? idMatch
      (pySplitWs ("12345678 Smith, John Q ABCD1234 1500 1600/9 W2 D3 zz".toList)) = some 0 ∧
    parse_section_results
      ("pos last first id start end rd1 rd2 tot\n12345678 Smith, John Q ABCD1234 1500 1600/9 W2 D3 zz".toList) =
      .ok [] :=
  ⟨rfl, rfl, rfl, rfl, rfl⟩

/-- C2 (amended): the anchor is the first token matching `^[A-Z0-9]{8}$`
scanning from index 0 (not 1); the line is skipped when no such token
exists or the first one sits at an index below 2; otherwise lastName is
token 1 with trailing commas stripped and firstName the space-join of
tokens 2 up to the anchor index, possibly empty. -/
theorem C2_anchor_scan (rcs : List (Nat × List Char)) (line : List Char)
    (h2 : 10 ≤ (pySplitWs line).length)
    (h3 : (pyInt? ((pySplitWs line).getD 0 [])).isSome = true) :
    (List.findIdx? idMatch (pySplitWs line) = none → parseRow rcs line = .ok none) ∧
    (∀ ne, List.findIdx? idMatch (pySplitWs line) = some ne → ne < 2 →
      parseRow rcs line = .ok none) ∧
    (∀ ne p, List.findIdx? idMatch (pySplitWs line) = some ne →
      parseRow rcs line = .ok (some p) →
      2 ≤ ne ∧
      idMatch ((pySplitWs line).getD ne []) = true ∧
      (∀ j < ne, idMatch ((pySplitWs line).getD j []) = false) ∧
      p.id = (pySplitWs line).getD ne [] ∧
      p.lastName = pyRstrip ',' ((pySplitWs line).getD 1 []) ∧
      p.firstName = List.intercalate [' '] (((pySplitWs line).drop 2).take (ne - 2))) := by
  refine ⟨?_, ?_, ?_⟩
  · intro hnone
    unfold parseRow
    by_cases hb : (pyStrip line).isEmpty
    · rw [if_pos hb]
    · rw [if_neg hb]
      unfold parseRowParts
      rw [if_neg (by omega)]
      obtain ⟨pos, hpos⟩ := Option.isSome_iff_exists.mp h3
      rw [hpos]
      simp only
      rw [hnone]
  · intro ne hne hlt
    unfold parseRow
    by_cases hb : (pyStrip line).isEmpty
    · rw [if_pos hb]
    · rw [if_neg hb]
      unfold parseRowParts
      rw [if_neg (by omega)]
      obtain ⟨pos, hpos⟩ := Option.isSome_iff_exists.mp h3
      rw [hpos]
      simp only
      rw [hne]
      simp only
      rw [if_pos hlt]
  · intro ne p hne hok
    have hparts := parseRow_ok_some hok
    obtain ⟨ne', st, e, g, c, hfi, hne2, _, _, hrs, hrec⟩ := parseRowParts_ok_some hparts
    have hne_eq : ne' = ne := by
      rw [hfi] at hne
      exact Option.some_inj.mp hne
    subst hne_eq
    obtain ⟨hlt, hmatch, hjs⟩ := findIdx_idMatch_spec hfi
    exact ⟨by omega, hmatch, hjs, by rw [hrec], by rw [hrec], by rw [hrec]⟩

/-- C2 (witness): the amended theorem at the spec's ID-anchored example
row `3 Smith, John Q ABCD1234 ...`: the anchor is found at index 4
(scanning from 0), lastName `Smith`, firstName `John Q`. -/
theorem C2_witness :
    2 ≤ 4 ∧
    idMatch ((pySplitWs ("3 Smith, John Q ABCD1234 1500 1600/9 W2 D3 zz".toList)).getD 4 []) =
      true ∧
    (∀ j < 4, idMatch
      ((pySplitWs ("3 Smith, John Q ABCD1234 1500 1600/9 W2 D3 zz".toList)).getD j []) =
      false) ∧
    ({ pos := 3
       id := "ABCD1234".toList
       lastName := "Smith".toList
       firstName := "John Q".toList
       start := some 1500
       endRating := some 1600
       gms := some 9
       rds := []
       tot := none } : Player).id =
      (pySplitWs ("3 Smith, John Q ABCD1234 1500 1600/9 W2 D3 zz".toList)).getD 4 [] ∧
    ({ pos := 3
       id := "ABCD1234".toList
       lastName := "Smith".toList
       firstName := "John Q".toList
       start := some 1500
       endRating := some 1600
       gms := some 9
       rds := []
       tot := none } : Player).lastName =
      pyRstrip ',' ((pySplitWs ("3 Smith, John Q ABCD1234 1500 1600/9 W2 D3 zz".toList)).getD 1 []) ∧
    ({ pos := 3
       id := "ABCD1234".toList
       lastName := "Smith".toList
       firstName := "John Q".toList
       start := some 1500
       endRating := some 1600
       gms := some 9
       rds := []
       tot := none } : Player).firstName =
      List.intercalate [' ']
        (((pySplitWs ("3 Smith, John Q ABCD1234 1500 1600/9 W2 D3 zz".toList)).drop 2).take
          (4 - 2)) :=
  (C2_anchor_scan [] ("3 Smith, John Q ABCD1234 1500 1600/9 W2 D3 zz".toList)
    (by decide) (by decide)).2.2 4
    { pos := 3
      id := "ABCD1234".toList
      lastName := "Smith".toList
      firstName := "John Q".toList
      start := some 1500
      endRating := some 1600
      gms := some 9
      rds := []
      tot := none }
    rfl rfl

/-! ## Claim C3 -/

/-- C3 (code bug): the claim (and the spec's never-fail contract and the
`try`/`except ValueError` that surrounds the numeric parses) requires the
slash branch to leave fields unset on parse failure and still advance the
cursor — but the tuple unpacking `end, games = end_games.split('/')` sits
outside the `try`, so the token `15//9` (which contains `/` and no
whitespace) splits into three pieces and raises an uncaught `ValueError`,
and the whole section parse aborts with no rows at all. -/
theorem C3_double_slash_crash :
    ("15//9".toList.contains '/') = true ∧
    ("15//9".toList.contains ' ') = false ∧
    splitOnChar '/' ("15//9".toList) = ["15".toList, [], "9".toList] ∧
    parse_section_results
      ("pos last first id start end rd1 rd2 tot\n1 Smith, John Q ABCD1234 1500 15//9 W2 D3 zz xx".toList) =
      .error () :=
  ⟨rfl, rfl, rfl, rfl⟩

/-! ## Claim C7 -/

/-- C7 (code bug): a line that passes every check of the claim is supposed
to yield exactly one appended row, and rows appear in line order — but a
rating/games token with two slashes in any line raises an uncaught
`ValueError` that aborts the whole call, so even the first line below,
which alone parses to a complete row, yields nothing. -/
theorem C7_crash_discards_rows :
    parseRow (round_columns ("pos last first id start end rd1 rd2 tot".toList))
      ("1 Smith, John Q ABCD1234 1500 1600/9 W2 D3 zz xx".toList) =
      .ok (some { pos := 1
                  id := "ABCD1234".toList
                  lastName := "Smith".toList
                  firstName := "John Q".toList
                  start := some 1500
                  endRating := some 1600
                  gms := some 9
                  rds := [⟨"rd1".toList, "W2".toList⟩, ⟨"rd2".toList, "D3".toList⟩]
                  tot := none }) ∧
    parse_section_results
      ("pos last first id start end rd1 rd2 tot\n1 Smith, John Q ABCD1234 1500 1600/9 W2 D3 zz xx\n2 Jones, Ann R BCDE2345 1400 15//9 W1 D4 zz xx".toList) =
      .error () :=
  ⟨rfl, rfl⟩

/-! ## Digit-token facts for the games-played fallback -/

theorem usDigitsTail_of_all {l : List Char} (h : ∀ c ∈ l, c.isDigit = true) :
    usDigitsTail l = true := by
  induction l with
  | nil => rfl
  | cons c cs ih =>
    have hc : c.isDigit = true := h c (by simp)
    have hcne : c ≠ '_' := by
      rintro rfl
      exact absurd hc (by decide)
    unfold usDigitsTail
    rw [if_neg hcne, hc, Bool.true_and]
    exact ih (fun x hx => h x (List.mem_cons_of_mem _ hx))

theorem usDigits_of_all {l : List Char} (hne : l ≠ []) (h : ∀ c ∈ l, c.isDigit = true) :
    usDigits l = true := by
  cases l with
  | nil => exact absurd rfl hne
  | cons c cs =>
    have hc : c.isDigit = true := h c (by simp)
    simp only [usDigits, hc, Bool.true_and]
    exact usDigitsTail_of_all (fun x hx => h x (List.mem_cons_of_mem _ hx))

theorem pyInt?_isSome_of_pyIsDigit {t : List Char} (h : pyIsDigit t = true) :
    (pyInt? t).isSome = true := by
  simp only [pyIsDigit, Bool.and_eq_true, Bool.not_eq_true'] at h
  obtain ⟨hne0, hall⟩ := h
  have hne : t ≠ [] := by
    intro he
    rw [he] at hne0
    simp at hne0
  rw [List.all_eq_true] at hall
  have hstrip : pyStrip t = t :=
    pyStrip_eq_self_of_all (fun c hc => isPySpace_false_of_isDigit (hall c hc))
  cases t with
  | nil => exact absurd rfl hne
  | cons c cs =>
    have hc : c.isDigit = true := hall c (by simp)
    have hcp : c ≠ '+' := by rintro rfl; exact absurd hc (by decide)
    have hcm : c ≠ '-' := by rintro rfl; exact absurd hc (by decide)
    unfold pyInt?
    rw [hstrip]
    simp only [hcp, if_false, hcm]
    rw [usDigits_of_all (by simp) (fun x hx => hall x hx)]
    simp

/-! ## Claim C4 -/

theorem endGamesFb_eq {parts : List (List Char)} {i : Nat}
    {a b : Option Int} {c' : Nat}
    (h : parseEndGames parts i = .ok (a, b, c')) :
    endGamesFb parts i =
      .ok (a, (gmsFallback parts c' a b).1, (gmsFallback parts c' a b).2) := by
  unfold endGamesFb
  rw [h]

theorem gmsFallback_no_op_of_guard {parts : List (List Char)} {i : Nat}
    {e g : Option Int} (h : (e.isSome && g.isNone) = false) :
    gmsFallback parts i e g = (g, i) := by
  unfold gmsFallback
  rw [if_neg (by rw [h]; simp)]

theorem gmsFallback_no_op_of_token {parts : List (List Char)} {i : Nat}
    {e : Option Int}
    (h : ¬(i < parts.length ∧ pyIsDigit (parts.getD i []) = true)) :
    gmsFallback parts i e none = (none, i) := by
  unfold gmsFallback
  by_cases hg : (e.isSome && (none : Option Int).isNone) = true
  · rw [if_pos hg]
    have hcond : (decide (i < parts.length) && pyIsDigit (parts.getD i [])) = false := by
      by_cases hlt : i < parts.length
      · cases hb : pyIsDigit (parts.getD i []) with
        | true => exact absurd ⟨hlt, hb⟩ h
        | false => simp [hb]
      · simp [hlt]
    rw [if_neg (by rw [hcond]; simp)]
  · rw [if_neg hg]

theorem gmsFallback_consumes {parts : List (List Char)} {i : Nat} {e : Option Int}
    (hlt : i < parts.length) (hdig : pyIsDigit (parts.getD i []) = true)
    (he : e.isSome = true) :
    gmsFallback parts i e none = (pyInt? (parts.getD i []), i + 1) := by
  unfold gmsFallback
  rw [if_pos (by simp [he])]
  rw [if_pos (by rw [hdig]; simp [hlt])]
  obtain ⟨g, hg⟩ := Option.isSome_iff_exists.mp (pyInt?_isSome_of_pyIsDigit hdig)
  rw [hg]

/-- C4: the single token `1500/9`, the token pair `1500/` `9`, and the
single token `1500` all yield an end rating of 1500; the first two forms
also yield 9 games played (the second via the partial slash-parse followed
by the bare-digit fallback); the bare `1500` leaves the games count unset
unless the immediately following token is a bare digit sequence, which is
then consumed as the games count. -/
theorem C4_rating_games_formats (parts : List (List Char)) (i : Nat)
    (hi : i < parts.length) :
    (parts.getD i [] = "1500/9".toList →
      endGamesFb parts i = .ok (some 1500, some 9, i + 1)) ∧
    (parts.getD i [] = "1500/".toList → i + 1 < parts.length →
      parts.getD (i + 1) [] = "9".toList →
      endGamesFb parts i = .ok (some 1500, some 9, i + 2)) ∧
    (parts.getD i [] = "1500".toList →
      ¬(i + 1 < parts.length ∧ pyIsDigit (parts.getD (i + 1) []) = true) →
      endGamesFb parts i = .ok (some 1500, none, i + 1)) ∧
    (parts.getD i [] = "1500".toList → i + 1 < parts.length →
      pyIsDigit (parts.getD (i + 1) []) = true →
      endGamesFb parts i = .ok (some 1500, pyInt? (parts.getD (i + 1) []), i + 2) ∧
      (pyInt? (parts.getD (i + 1) [])).isSome = true) := by
  refine ⟨?_, ?_, ?_, ?_⟩
  · intro heq
    have hpe : parseEndGames parts i = .ok (some 1500, some 9, i + 1) := by
      unfold parseEndGames
      rw [if_pos hi, heq]
      rfl
    rw [endGamesFb_eq hpe,
      gmsFallback_no_op_of_guard (e := some 1500) (g := some 9) rfl]
  · intro heq hnext heq2
    have hpe : parseEndGames parts i = .ok (some 1500, none, i + 1) := by
      unfold parseEndGames
      rw [if_pos hi, heq]
      rfl
    have hdig9 : pyIsDigit (parts.getD (i + 1) []) = true := by
      rw [heq2]
      rfl
    rw [endGamesFb_eq hpe, gmsFallback_consumes (e := some 1500) hnext hdig9 rfl, heq2]
    rfl
  · intro heq hno
    have hpe : parseEndGames parts i = .ok (some 1500, none, i + 1) := by
      unfold parseEndGames
      rw [if_pos hi, heq]
      rfl
    rw [endGamesFb_eq hpe, gmsFallback_no_op_of_token hno]
  · intro heq hnext hdig
    have hpe : parseEndGames parts i = .ok (some 1500, none, i + 1) := by
      unfold parseEndGames
      rw [if_pos hi, heq]
      rfl
    refine ⟨?_, pyInt?_isSome_of_pyIsDigit hdig⟩
    rw [endGamesFb_eq hpe, gmsFallback_consumes (e := some 1500) hnext hdig rfl]

/-- C4 (witness): the theorem's three forms at concrete token lists. -/
theorem C4_witness :
    endGamesFb ["1".toList, "1500/9".toList, "x".toList, "x".toList] 1 =
      .ok (some 1500, some 9, 2) ∧
    endGamesFb ["1".toList, "1500/".toList, "9".toList, "x".toList] 1 =
      .ok (some 1500, some 9, 3) ∧
    endGamesFb ["1".toList, "1500".toList, "x".toList, "x".toList] 1 =
      .ok (some 1500, none, 2) ∧
    endGamesFb ["1".toList, "1500".toList, "9".toList, "x".toList] 1 =
      .ok (some 1500, pyInt? ("9".toList), 3) := by
  refine ⟨?_, ?_, ?_, ?_⟩
  · exact (C4_rating_games_formats ["1".toList, "1500/9".toList, "x".toList, "x".toList] 1
      (by decide)).1 rfl
  · exact (C4_rating_games_formats ["1".toList, "1500/".toList, "9".toList, "x".toList] 1
      (by decide)).2.1 rfl (by decide) rfl
  · exact (C4_rating_games_formats ["1".toList, "1500".toList, "x".toList, "x".toList] 1
      (by decide)).2.2.1 rfl (by decide)
  · exact ((C4_rating_games_formats ["1".toList, "1500".toList, "9".toList, "x".toList] 1
      (by decide)).2.2.2 rfl (by decide) rfl).1

/-! ## Claim C9 -/

theorem splitOnChar_append_sep {sep : Char} {r : List Char} (h : sep ∉ r) :
    splitOnChar sep (r ++ [sep]) = [r, []] := by
  induction r with
  | nil => simp [splitOnChar]
  | cons c cs ih =>
    have hcne : c ≠ sep := fun hc => h (hc ▸ List.mem_cons_self c cs)
    simp only [List.cons_append, splitOnChar, List.append_eq]
    rw [if_neg hcne, ih (fun hm => h (List.mem_cons_of_mem _ hm))]

theorem parseEndGamesCore_single_slash (r : List Char) (nx : Option (List Char))
    (hs : '/' ∉ r) (hns : ' ' ∉ r) :
    parseEndGamesCore (r ++ ['/']) nx = .ok (pyInt? (pyStrip r), none, 1) := by
  have hc1 : (r ++ ['/']).contains '/' = true :=
    List.elem_iff.mpr (List.mem_append_right _ (by simp))
  have hc2 : (r ++ ['/']).contains ' ' = false := by
    cases hb : (r ++ ['/']).contains ' ' with
    | false => rfl
    | true =>
      have hmem : ' ' ∈ r ++ ['/'] := List.elem_iff.mp hb
      rcases List.mem_append.mp hmem with hm | hm
      · exact absurd hm hns
      · simp at hm
  unfold parseEndGamesCore
  rw [if_pos (by rw [hc1, hc2]; rfl), splitOnChar_append_sep hs]
  cases hp : pyInt? (pyStrip r) with
  | none => simp [hp]
  | some e =>
    simp [hp]
    rfl

theorem parseEndGamesCore_eq_noElif {eg : List Char} (hns : eg.contains ' ' = false)
    (nx : Option (List Char)) :
    parseEndGamesCore eg nx = parseEndGamesCoreNoElif eg := by
  unfold parseEndGamesCore parseEndGamesCoreNoElif
  cases hs : eg.contains '/' with
  | true =>
    rw [hns]
    rfl
  | false => rfl

/-- C9: since data lines are tokenized by whitespace splitting, no token
contains a space, so the first branch's guard (`'/' in end_games and
' ' not in end_games`) also captures every token ending in `/` — the
dedicated `elif` arm for the split-token `rating/ games` format is dead
code on every line the parser can feed it (the step equals the same step
with that arm removed); the format is handled instead by the first
branch's partial parse (end rating set, games parse failing on the empty
right piece) followed by the bare-digit games-played fallback. -/
theorem C9_dead_elif :
    (∀ (line : List Char) (i : Nat),
      parseEndGames (pySplitWs line) i = parseEndGamesNoElif (pySplitWs line) i) ∧
    (∀ (parts : List (List Char)) (i : Nat) (r g : List Char) (e : Int),
      parts.getD i [] = r ++ ['/'] → i < parts.length →
      '/' ∉ r → ' ' ∉ r →
      pyInt? (pyStrip r) = some e →
      i + 1 < parts.length → parts.getD (i + 1) [] = g → pyIsDigit g = true →
      parseEndGames parts i = .ok (some e, none, i + 1) ∧
      endGamesFb parts i = .ok (some e, pyInt? g, i + 2) ∧
      (pyInt? g).isSome = true) := by
  constructor
  · intro line i
    unfold parseEndGames parseEndGamesNoElif
    by_cases hi : i < (pySplitWs line).length
    · rw [if_pos hi, if_pos hi]
      have hsp : ((pySplitWs line).getD i []).contains ' ' = false := by
        cases hb : ((pySplitWs line).getD i []).contains ' ' with
        | false => rfl
        | true =>
          have hmem : ' ' ∈ (pySplitWs line).getD i [] := List.elem_iff.mp hb
          have hch := (pySplitWs_tokens line _ (getD_mem_of_lt [] hi)).2 ' ' hmem
          simp [isPySpace] at hch
      rw [parseEndGamesCore_eq_noElif hsp]
    · rw [if_neg hi, if_neg hi]
  · intro parts i r g e heq hi hs hns hpe hnext hgeq hgdig
    have hpeg : parseEndGames parts i = .ok (some e, none, i + 1) := by
      unfold parseEndGames
      rw [if_pos hi, heq, parseEndGamesCore_single_slash r _ hs hns, hpe]
    have hdig2 : pyIsDigit (parts.getD (i + 1) []) = true := by rw [hgeq]; exact hgdig
    refine ⟨hpeg, ?_, pyInt?_isSome_of_pyIsDigit hgdig⟩
    rw [endGamesFb_eq hpeg, gmsFallback_consumes (e := some e) hnext hdig2 rfl, hgeq]

/-- C9 (witness): the theorem's two parts at concrete inputs: the step
equals its elif-free variant on a concrete tokenized line, and the token
pair `1500/` `9` takes the first branch and the fallback. -/
theorem C9_witness :
    parseEndGames (pySplitWs ("1 Smith, John ABCD1234 1500 1500/ 9".toList)) 5 =
      parseEndGamesNoElif (pySplitWs ("1 Smith, John ABCD1234 1500 1500/ 9".toList)) 5 ∧
    parseEndGames ["x".toList, "1500/".toList, "9".toList] 1 =
      .ok (some 1500, none, 2) ∧
    endGamesFb ["x".toList, "1500/".toList, "9".toList] 1 =
      .ok (some 1500, pyInt? ("9".toList), 3) := by
  refine ⟨C9_dead_elif.1 ("1 Smith, John ABCD1234 1500 1500/ 9".toList) 5, ?_, ?_⟩
  · exact (C9_dead_elif.2 ["x".toList, "1500/".toList, "9".toList] 1 ("1500".toList)
      ("9".toList) 1500 rfl (by decide) (by decide) (by decide) rfl (by decide) rfl
      (by decide)).1
  · exact (C9_dead_elif.2 ["x".toList, "1500/".toList, "9".toList] 1 ("1500".toList)
      ("9".toList) 1500 rfl (by decide) (by decide) (by decide) rfl (by decide) rfl
      (by decide)).2.1

end NWSRS
